import Mathlib

/-!
# CShell: a verification development of `cshell.c`

A shallow embedding of the shell's line reader, tokenizer, builtin table,
dispatcher, process launcher and main loop, followed by the properties proved
about them.

Conventions of the embedding.

* A C `char` is a `Char`; the string terminator is `NUL`.  A block of `char`
  is the list of its cells, a pointer into it is an offset.
* `getchar` hands out the read-ahead of stdio, filled by one `read` of the
  file behind standard input when it is empty, and reports end of input
  (`EOF`) when the file has no more, every time it is asked.  The line reader
  is given the characters `getchar` is going to hand out, and the main loop
  moves standard input on by the number of characters the reader took.
* `malloc`/`realloc` answer through a `Heap`: whether a request succeeds and
  what an unwritten cell holds.  A failed request ends the run as `fatal`, a
  store outside the block as `fault`.
* The system calls are answered by the `World`, which also keeps the trace of
  what the process has done.  The process followed through `fork` is the one
  the `World` says: the child, or the parent with the reports of `waitpid`.
* In the line reader the `int` counters `bufsize` and `position` are integers
  wrapped to 32 bits, and a request for more than `PTRDIFF_MAX` bytes fails.
  In the tokenizer they are natural numbers: a line the reader can return is
  too short for them to wrap.
* Standard input is a file behind a description that the children share, and
  the read-ahead of stdio, which is the process's own.  A child moves the
  shared offset: forward when the program it runs reads, and back by the
  read-ahead it inherited when it ends in `exit` on a seekable file.
-/

namespace CShell

/-! ## Memory -/

/-- The string terminator `'\0'`. -/
def NUL : Char := Char.ofNat 0

/-- How a call of the embedded code can end. -/
inductive Outcome (α : Type) where
  /-- The call returns `a`. -/
  | ret (a : α)
  /-- The code printed `cshell: allocation error` and called `exit(EXIT_FAILURE)`. -/
  | fatal
  /-- The code stored outside the block it had allocated. -/
  | fault
  /-- The loop budget of the embedding was used up before the loop ended. -/
  | timeout
  deriving DecidableEq, Repr

/-- The allocator as the code sees it. -/
structure Heap where
  /-- Whether a request for a block of `n` bytes succeeds. -/
  avail : Nat → Bool
  /-- What cell `i` of a block of `char` holds before the code writes it. -/
  junk : Nat → Char

/-- An allocator that never fails and hands out blocks filled with `c`. -/
def Heap.plenty (c : Char) : Heap := ⟨fun _ => true, fun _ => c⟩

/-- The store `block[i] = v`, defined inside the block only. -/
def store {α : Type} (block : List α) (i : Nat) (v : α) : Option (List α) :=
  if i < block.length then some (block.set i v) else none

/-- The macro `PTRDIFF_MAX`: no block of memory is larger than this many bytes. -/
def PTRDIFF_MAX : Nat := 9223372036854775807

/-- The call `malloc(n)` for a block of `n` chars: `none` is the null pointer. -/
def malloc_chars (h : Heap) (n : Nat) : Option (List Char) :=
  if n ≤ PTRDIFF_MAX ∧ h.avail n then some ((List.range n).map h.junk) else none

/-- The call `realloc(block, n)` on a block of chars: the old cells are kept. -/
def realloc_chars (h : Heap) (block : List Char) (n : Nat) : Option (List Char) :=
  if n ≤ PTRDIFF_MAX ∧ h.avail n then
    some (block.take n ++ (List.range' block.length (n - block.length)).map h.junk)
  else none

/-! ## Machine integers -/

/-- The macro `INT_MAX`, for an `int` of 32 bits. -/
def INT_MAX : Int := 2147483647

/-- The `int` that `a + b` leaves in a variable: the sum, wrapped to 32 bits
in two's complement. -/
def int_add (a b : Int) : Int :=
  (a + b + 2147483648) % 4294967296 - 2147483648

/-- The conversion of an `int` to `size_t`, 64 bits wide, as in the argument
of `malloc` or `realloc`. -/
def size_t (n : Int) : Nat :=
  (n % 18446744073709551616).toNat

/-- The store `block[i] = v` for an `int` index, defined inside the block only. -/
def store_at {α : Type} (block : List α) (i : Int) (v : α) : Option (List α) :=
  if 0 ≤ i then store block i.toNat v else none

/-- The C string that starts at offset `p` of `mem`: the cells before the first `NUL`. -/
def str_at (mem : List Char) (p : Nat) : List Char :=
  (mem.drop p).takeWhile (fun c => c ≠ NUL)

/-! ## Line reader -/

/-- The macro `CSHELL_RL_BUFSIZE`. -/
def CSHELL_RL_BUFSIZE : Nat := 1024

/-- The `while (1)` loop of `cshell_read_line`.  The first argument is what
`getchar` is going to hand out, in order, before it reports the end of input;
the result is the buffer and what is left to hand out after the line. -/
def read_loop (h : Heap) :
    List Char → Int → Int → List Char → Outcome (List Char × List Char)
  | [], _, position, buffer =>
    -- c == EOF
    match store_at buffer position NUL with
    | none => Outcome.fault
    | some buffer => Outcome.ret (buffer, [])
  | c :: rest, bufsize, position, buffer =>
    if c = '\n' then
      match store_at buffer position NUL with
      | none => Outcome.fault
      | some buffer => Outcome.ret (buffer, rest)
    else
      match store_at buffer position c with
      | none => Outcome.fault
      | some buffer =>
        let position := int_add position 1
        if position ≥ bufsize then
          let bufsize := int_add bufsize CSHELL_RL_BUFSIZE
          match realloc_chars h buffer (size_t bufsize) with
          | none => Outcome.fatal
          | some buffer => read_loop h rest bufsize position buffer
        else read_loop h rest bufsize position buffer

/-- The function `cshell_read_line`, on what `getchar` is going to hand out:
the buffer it returns, and what is left to hand out after the line. -/
def cshell_read_line (h : Heap) (stdin : List Char) : Outcome (List Char × List Char) :=
  let bufsize : Int := CSHELL_RL_BUFSIZE
  let position : Int := 0
  match malloc_chars h (size_t bufsize) with
  | none => Outcome.fatal
  | some buffer => read_loop h stdin bufsize position buffer

/-- The characters of standard input before the first newline or the end of input. -/
def first_line (stdin : List Char) : List Char :=
  stdin.takeWhile (fun c => c ≠ '\n')

/-- Standard input after its first line and the newline that ends it. -/
def after_line (stdin : List Char) : List Char :=
  (stdin.dropWhile (fun c => c ≠ '\n')).drop 1

/-! ## Tokenizer -/

/-- The macro `CSHELL_TOK_BUFSIZE`. -/
def CSHELL_TOK_BUFSIZE : Nat := 64

/-- The macro `CSHELL_TOK_DELIM`, the string `" \t\r\n\a"`. -/
def CSHELL_TOK_DELIM : List Char := [' ', '\t', '\r', '\n', Char.ofNat 7]

/-- The library function `strspn(s, accept)`, on the cells from `s` on: the
length of the longest prefix of the string made of characters of `accept`. -/
def strspn : List Char → List Char → Nat
  | [], _ => 0
  | c :: s, accept => if c ≠ NUL ∧ c ∈ accept then strspn s accept + 1 else 0

/-- The library function `strcspn(s, reject)`, on the cells from `s` on: the
length of the longest prefix of the string with no character of `reject`. -/
def strcspn : List Char → List Char → Nat
  | [], _ => 0
  | c :: s, reject => if c = NUL ∨ c ∈ reject then 0 else strcspn s reject + 1

/-- What `strtok` works on: the block that holds the line, which it writes
to, and the pointer it keeps between calls. -/
structure Strtok where
  /-- The cells of the line's block. -/
  mem : List Char
  /-- The saved pointer, an offset into `mem`. -/
  save : Nat
  deriving DecidableEq, Repr

/-- The library function `strtok(str, delim)`.  `str` is `some p` for a
pointer into the block and `none` for `NULL` (go on from the saved pointer);
the result is the token's pointer, `none` for `NULL`.  A read past the end of
the block gives `NUL`: the block is meant to hold a terminator. -/
def strtok (str : Option Nat) (delim : List Char) (st : Strtok) : Option Nat × Strtok :=
  let s := match str with
    | some p => p
    | none => st.save
  let s := s + strspn (st.mem.drop s) delim
  if st.mem.getD s NUL = NUL then
    (none, { st with save := s })
  else
    let e := s + strcspn (st.mem.drop s) delim
    if st.mem.getD e NUL = NUL then
      (some s, { st with save := e })
    else
      (some s, { mem := st.mem.set e NUL, save := e + 1 })

/-- One cell of the token array, a `char *`. -/
inductive Slot where
  /-- A cell the code has not written. -/
  | unset
  /-- The null pointer. -/
  | null
  /-- A pointer into the line's block. -/
  | ptr (p : Nat)
  deriving DecidableEq, Repr

/-- The size of a `char *` in bytes. -/
def sizeof_ptr : Nat := 8

/-- The call `malloc(n * sizeof(char*))` for a block of `n` pointers. -/
def malloc_slots (h : Heap) (n : Nat) : Option (List Slot) :=
  if h.avail (n * sizeof_ptr) then some (List.replicate n Slot.unset) else none

/-- The call `realloc(block, n * sizeof(char*))` on a block of pointers. -/
def realloc_slots (h : Heap) (block : List Slot) (n : Nat) : Option (List Slot) :=
  if h.avail (n * sizeof_ptr) then
    some (block.take n ++ List.replicate (n - block.length) Slot.unset)
  else none

/-- The `while (token != NULL)` loop of `cshell_split_line` and the two
statements after it.  The first argument bounds the number of iterations. -/
def split_loop (h : Heap) :
    Nat → Option Nat → Nat → Nat → List Slot → Strtok → Outcome (List Slot × List Char)
  | _, none, _, position, tokens, st =>
    match store tokens position Slot.null with
    | none => Outcome.fault
    | some tokens => Outcome.ret (tokens, st.mem)
  | 0, some _, _, _, _, _ => Outcome.timeout
  | fuel + 1, some token, bufsize, position, tokens, st =>
    match store tokens position (Slot.ptr token) with
    | none => Outcome.fault
    | some tokens =>
      let position := position + 1
      if position ≥ bufsize then
        let bufsize := bufsize + CSHELL_TOK_BUFSIZE
        match realloc_slots h tokens bufsize with
        | none => Outcome.fatal
        | some tokens =>
          let next := strtok none CSHELL_TOK_DELIM st
          split_loop h fuel next.1 bufsize position tokens next.2
      else
        let next := strtok none CSHELL_TOK_DELIM st
        split_loop h fuel next.1 bufsize position tokens next.2

/-- The function `cshell_split_line` on the block `line`: the token array it
returns and the block as it leaves it.  Every iteration of the loop passes at
least one character of the line, so `line.length` iterations are enough. -/
def cshell_split_line (h : Heap) (line : List Char) : Outcome (List Slot × List Char) :=
  let bufsize := CSHELL_TOK_BUFSIZE
  let position := 0
  match malloc_slots h bufsize with
  | none => Outcome.fatal
  | some tokens =>
    let first := strtok (some 0) CSHELL_TOK_DELIM ⟨line, 0⟩
    split_loop h line.length first.1 bufsize position tokens first.2

/-- The strings of a null-terminated array of pointers into `mem`: `none`
when an unwritten cell or the end of the block comes before the terminator. -/
def argv : List Slot → List Char → Option (List (List Char))
  | [], _ => none
  | Slot.unset :: _, _ => none
  | Slot.null :: _, _ => some []
  | Slot.ptr p :: rest, mem => (argv rest mem).map (fun a => str_at mem p :: a)

/-- Whether `c` is one of the characters of `CSHELL_TOK_DELIM`. -/
def is_delim (c : Char) : Bool := decide (c ∈ CSHELL_TOK_DELIM)

/-- The tokens of a string as the design states them: the pieces between
delimiters, the empty pieces left out. -/
def tokenize (s : List Char) : List (List Char) :=
  (s.splitOnP is_delim).filter (fun t => decide (t ≠ []))

/-- The tokens joined with a single space. -/
def join_space (tokens : List (List Char)) : List Char :=
  List.intercalate [' '] tokens

/-! ## The process and its operating system -/

/-- The macro `EXIT_FAILURE`. -/
def EXIT_FAILURE : Int := 1

/-- The status a call of `waitpid(pid, &status, WUNTRACED)` reports. -/
inductive WaitStatus where
  /-- The child ended by itself with this exit status. -/
  | exited (code : Nat)
  /-- The child was killed by this signal. -/
  | signaled (sig : Nat)
  /-- The child was stopped by this signal, and is still there. -/
  | stopped (sig : Nat)
  deriving DecidableEq, Repr

/-- The macro `WIFEXITED`. -/
def WIFEXITED : WaitStatus → Bool
  | WaitStatus.exited _ => true
  | _ => false

/-- The macro `WIFSIGNALED`. -/
def WIFSIGNALED : WaitStatus → Bool
  | WaitStatus.signaled _ => true
  | _ => false

/-- What a call of `fork()` gives the process that is followed. -/
inductive Fork where
  /-- The value `0`: the process followed is the new child. -/
  | child
  /-- A negative value: no child was made. -/
  | error
  /-- The child's pid, in the parent, and the statuses the calls of `waitpid`
  on it will report, in order; after the last of them `waitpid` blocks forever. -/
  | parent (pid : Nat) (reports : List WaitStatus)
  deriving DecidableEq, Repr

/-- What the process does that can be seen from outside it. -/
inductive Event where
  /-- Text written to standard output by `printf`. -/
  | stdout (text : List Char)
  /-- Text written to standard error by `fprintf`. -/
  | stderr (text : List Char)
  /-- A call `perror(text)`. -/
  | perror (text : List Char)
  /-- A call `chdir(path)`. -/
  | chdir (path : List Char)
  /-- A call `fork()`. -/
  | fork
  /-- A call `execvp(args[0], args)`. -/
  | execvp (args : List (List Char))
  /-- A call `waitpid(pid, &status, WUNTRACED)`. -/
  | waitpid (pid : Nat)
  deriving DecidableEq, Repr

/-- The size of the buffer stdio gives standard input: one `read` asks for
this many bytes. -/
def STDIO_BUFSIZE : Nat := 4096

/-- Standard input: the file behind it, whose description the children
share, and the read-ahead of stdio, which each process has for itself. -/
structure Stdin where
  /-- The bytes of the file, or what the terminal or the pipe delivers. -/
  file : List Char
  /-- The offset of the file description: where the next `read` starts. -/
  offset : Nat
  /-- What stdio has read from the file and not handed out yet. -/
  ahead : List Char
  /-- Whether `lseek` works on the file: it does not on a terminal or a pipe. -/
  seekable : Bool
  deriving DecidableEq, Repr

/-- What `getchar` is going to hand out, in order, if nothing moves the offset. -/
def Stdin.pending (s : Stdin) : List Char :=
  s.ahead ++ s.file.drop s.offset

/-- The library function `getchar`: the next character read ahead, after one
`read` of the file when none is left; `none` is `EOF`. -/
def Stdin.getchar (s : Stdin) : Option Char × Stdin :=
  match s.ahead with
  | c :: ahead => (some c, { s with ahead := ahead })
  | [] =>
    match (s.file.drop s.offset).take STDIO_BUFSIZE with
    | [] => (none, s)
    | c :: ahead => (some c, { s with offset := s.offset + (ahead.length + 1), ahead := ahead })

/-- Standard input after `k` calls of `getchar`. -/
def Stdin.advance : Nat → Stdin → Stdin
  | 0, s => s
  | k + 1, s => Stdin.advance k s.getchar.2

/-- What a child that ends in `exit` does to standard input: `exit` puts the
offset of a seekable file back by the size of the read-ahead the child got
from its parent; the `lseek` fails when that is before the start of the file. -/
def Stdin.child_exit (s : Stdin) : Stdin :=
  if s.seekable = true ∧ s.ahead.length ≤ s.offset then
    { s with offset := s.offset - s.ahead.length }
  else s

/-- What a program run in a child does to standard input when it reads `n`
bytes of the file. -/
def Stdin.child_reads (s : Stdin) (n : Nat) : Stdin :=
  { s with offset := s.offset + n }

/-- The state of the shell's process and of what surrounds it. -/
structure World where
  /-- The allocator. -/
  heap : Heap
  /-- Standard input. -/
  stdin : Stdin
  /-- The working directory. -/
  cwd : List Char
  /-- The file system: the directory `chdir(path)` leads to from the working
  directory `cwd`, `none` when the call fails. -/
  dir : List Char → List Char → Option (List Char)
  /-- What the coming calls of `fork()` give, the next one first. -/
  forks : Nat → Fork
  /-- Whether `execvp` finds a program to run for this argument vector. -/
  runs : List (List Char) → Bool
  /-- How many bytes of standard input the program run for this argument
  vector reads. -/
  reads : List (List Char) → Nat
  /-- What the process has done so far, the oldest first. -/
  trace : List Event

/-- How a call made by the shell ends. -/
inductive Ending where
  /-- The function returns this value. -/
  | ret (status : Int)
  /-- The process ends in `exit(code)`. -/
  | exit (code : Int)
  /-- The call `execvp` succeeds: the process goes on as another program. -/
  | exec (args : List (List Char))
  /-- The process waits for ever in `waitpid`. -/
  | hang
  /-- The process stores outside a block it allocated. -/
  | fault
  /-- The loop budget of the embedding was used up before the loop ended. -/
  | timeout
  deriving DecidableEq, Repr

/-- The process adds `e` to what it has done. -/
def World.log (w : World) (e : Event) : World :=
  { w with trace := w.trace ++ [e] }

/-- A null-terminated argument vector `char **args` is the list of its
strings before the terminator: `args[i]` is `NULL` when the list has no
element `i`. -/
abbrev Args := List (List Char)

/-- The library function `strcmp`, up to the size of a non-zero result. -/
def strcmp : List Char → List Char → Int
  | [], [] => 0
  | [], _ :: _ => -1
  | _ :: _, [] => 1
  | a :: s, b :: t => if a = b then strcmp s t else if a.toNat < b.toNat then -1 else 1

/-! ## Builtins -/

/-- The array `builtin_str`. -/
def builtin_str : List (List Char) := ["help".toList, "cd".toList, "exit".toList]

/-- The function `cshell_num_builtins`. -/
def cshell_num_builtins : Nat := builtin_str.length

/-- The function `cshell_help`. -/
def cshell_help (_args : Args) (w : World) : Ending × World :=
  let w := w.log (Event.stdout "_____________________\n\n".toList)
  let w := w.log (Event.stdout "CShell by Awf Wiswasi\n".toList)
  let w := w.log (Event.stdout "https://github.com/awiswasi/\n".toList)
  let w := w.log (Event.stdout "\nThis is a simple Linux shell built with C language.\n".toList)
  let w := w.log (Event.stdout "Built-in commands:\n".toList)
  let w := (List.range cshell_num_builtins).foldl
    (fun w i => w.log (Event.stdout ("  ".toList ++ builtin_str.getD i [] ++ "\n".toList))) w
  let w := w.log (Event.stdout
    "\nFor any questions or support, please contact me: awf.wis@gmail.com\n".toList)
  let w := w.log (Event.stdout
    "__________________________________________________________________\n\n".toList)
  (Ending.ret 1, w)

/-- The function `cshell_cd`. -/
def cshell_cd (args : Args) (w : World) : Ending × World :=
  match args[1]? with
  | none =>
    (Ending.ret 1, w.log (Event.stderr "cshell: expected argument to \"cd\"\n".toList))
  | some path =>
    let w := w.log (Event.chdir path)
    match w.dir w.cwd path with
    | some there => (Ending.ret 1, { w with cwd := there })
    | none => (Ending.ret 1, w.log (Event.perror "cshell".toList))

/-- The function `cshell_exit`. -/
def cshell_exit (_args : Args) (w : World) : Ending × World :=
  (Ending.ret 0, w.log (Event.stdout "\x1b[0m".toList))

/-- The array `builtin_func`. -/
def builtin_func : List (Args → World → Ending × World) :=
  [cshell_help, cshell_cd, cshell_exit]

/-! ## Process launcher -/

/-- The `do ... while (!WIFEXITED(status) && !WIFSIGNALED(status))` loop of
`cshell_launch`, on the statuses `waitpid` is going to report. -/
def wait_loop (pid : Nat) : List WaitStatus → World → Ending × World
  | [], w => (Ending.hang, w.log (Event.waitpid pid))
  | status :: reports, w =>
    let w := w.log (Event.waitpid pid)
    if !WIFEXITED status && !WIFSIGNALED status then wait_loop pid reports w
    else (Ending.ret 1, w)

/-- The function `cshell_launch`. -/
def cshell_launch (args : Args) (w : World) : Ending × World :=
  let pid := w.forks 0
  let w := { w.log Event.fork with forks := fun n => w.forks (n + 1) }
  match pid with
  | Fork.child =>
    -- Child process
    let w := w.log (Event.execvp args)
    if w.runs args then (Ending.exec args, w)
    else (Ending.exit EXIT_FAILURE, w.log (Event.perror "cshell".toList))
  | Fork.error =>
    -- Error forking
    (Ending.ret 1, w.log (Event.perror "cshell".toList))
  | Fork.parent pid reports =>
    -- Parent process; the child runs its branch meanwhile
    let stdin := if w.runs args then w.stdin.child_reads (w.reads args) else w.stdin.child_exit
    wait_loop pid reports { w with stdin := stdin }

/-! ## Dispatcher -/

/-- The `for` loop of `cshell_execute` over the entries `i` of the table that
are still to be tried, and the statement after it. -/
def execute_scan (args : Args) (arg0 : List Char) (w : World) :
    List (List Char × (Args → World → Ending × World)) → Ending × World
  | [] => cshell_launch args w
  | (name, func) :: table =>
    if strcmp arg0 name = 0 then func args w
    else execute_scan args arg0 w table

/-- The function `cshell_execute`. -/
def cshell_execute (args : Args) (w : World) : Ending × World :=
  match args with
  | [] =>
    -- An empty command was entered.
    (Ending.ret 1, w)
  | arg0 :: _ => execute_scan args arg0 w (List.zip builtin_str builtin_func)

/-! ## Main loop -/

/-- One pass through the body of the `do ... while (status)` loop of
`cshell_loop`: prompt, read, split, execute.  The two calls of `free` do
nothing that the embedding sees. -/
def loop_body (w : World) : Ending × World :=
  let w := w.log (Event.stdout "\x1b[33mcshell> ".toList)
  match cshell_read_line w.heap w.stdin.pending with
  | Outcome.ret (line, rest) =>
    -- stdio has handed out the characters that are not left in `rest`
    let w := { w with stdin := w.stdin.advance (w.stdin.pending.length - rest.length) }
    match cshell_split_line w.heap line with
    | Outcome.ret (tokens, mem) =>
      match argv tokens mem with
      | some args => cshell_execute args w
      | none => (Ending.fault, w)
    | Outcome.fatal => (Ending.exit EXIT_FAILURE, w.log (Event.stderr "cshell: allocation error\n".toList))
    | Outcome.fault => (Ending.fault, w)
    | Outcome.timeout => (Ending.timeout, w)
  | Outcome.fatal => (Ending.exit EXIT_FAILURE, w.log (Event.stderr "cshell: allocation error\n".toList))
  | Outcome.fault => (Ending.fault, w)
  | Outcome.timeout => (Ending.timeout, w)

/-- The function `cshell_loop`, given a bound on the number of passes: it
ends in `timeout` when the loop is still running after that many. -/
def cshell_loop : Nat → World → Ending × World
  | 0, w => (Ending.timeout, w)
  | n + 1, w =>
    match loop_body w with
    | (Ending.ret status, w) => if status ≠ 0 then cshell_loop n w else (Ending.ret status, w)
    | stopped => stopped

/-! ## Words used to state the properties -/

/-- The string a line of input is for the tokenizer: its characters before
the first `NUL`, if it has one. -/
def line_string (line : List Char) : List Char :=
  line.takeWhile (fun c => c ≠ NUL)

/-- Standard input after its first `k` lines. -/
def after_lines : Nat → List Char → List Char
  | 0, stdin => stdin
  | k + 1, stdin => after_lines k (after_line stdin)

/-- The line number `k` of standard input, counted from 0; past the end of
input every line is empty. -/
def nth_line (k : Nat) (stdin : List Char) : List Char :=
  first_line (after_lines k stdin)

/-- Whether the first token of the line is `exit`. -/
def exit_line (line : List Char) : Bool :=
  (tokenize (line_string line)).head? = some "exit".toList

/-- The world after the prompt and the reading of one line: stdio has handed
out the first line of what was pending and the newline that ends it. -/
def World.line_read (w : World) : World :=
  { w.log (Event.stdout "\x1b[33mcshell> ".toList) with
    stdin := w.stdin.advance (w.stdin.pending.length - (after_line w.stdin.pending).length) }

/-- The children leave standard input as it is: a program that `execvp`
finds reads nothing from it, and where `execvp` finds none, so that the child
ends in `exit`, standard input is not seekable, as a terminal or a pipe. -/
def World.input_kept (w : World) : Prop :=
  ∀ args, (w.runs args = true → w.reads args = 0) ∧
    (w.runs args = false → w.stdin.seekable = false)

/-- The length from which a line makes `bufsize` wrap in `cshell_read_line`:
`INT_MAX + 1 - CSHELL_RL_BUFSIZE`. -/
def LINE_LIMIT : Nat := 2147482624

/-- Every line of the input is short enough for `cshell_read_line`. -/
def lines_short (stdin : List Char) : Prop :=
  ∀ k, (nth_line k stdin).length < LINE_LIMIT

/-- Every call of `fork` to come leaves the process in the parent, without a
child or with one that ends or is killed. -/
def World.launches_return (w : World) : Prop :=
  ∀ n, w.forks n = Fork.error ∨
    ∃ pid reports, w.forks n = Fork.parent pid reports ∧
      ∃ status ∈ reports, WIFEXITED status = true ∨ WIFSIGNALED status = true

/-- The number of calls of `fork` in a trace. -/
def fork_count (trace : List Event) : Nat :=
  trace.count Event.fork

/-- A world to run the shell in, on input from a pipe: the allocator never
fails, every directory change succeeds, and every launch makes a child that
reads nothing, is stopped once and then ends with the exit status 1. -/
def World.sample (stdin : List Char) : World where
  heap := Heap.plenty 'x'
  stdin := { file := stdin, offset := 0, ahead := [], seekable := false }
  cwd := "/".toList
  dir := fun _ path => some path
  forks := fun _ => Fork.parent 7 [WaitStatus.stopped 19, WaitStatus.exited 1]
  runs := fun _ => true
  reads := fun _ => 0
  trace := []

/-- A world to run the shell in, on input from a file of commands none of
which `execvp` finds: every launch makes a child that ends in
`exit(EXIT_FAILURE)`. -/
def World.script (file : List Char) : World where
  heap := Heap.plenty 'x'
  stdin := { file := file, offset := 0, ahead := [], seekable := true }
  cwd := "/".toList
  dir := fun _ path => some path
  forks := fun _ => Fork.parent 7 [WaitStatus.exited 1]
  runs := fun _ => false
  reads := fun _ => 0
  trace := []

/-! ## Proofs: line reader -/

theorem store_eq_some {α : Type} (block : List α) (i : Nat) (v : α) (h : i < block.length) :
    store block i v = some (block.set i v) := by
  simp [store, h]

theorem take_set_self {α : Type} (l : List α) (i : Nat) (v : α) :
    (l.set i v).take i = l.take i := by
  induction l generalizing i with
  | nil => simp
  | cons a l ih => cases i <;> simp [ih]

theorem take_succ_set {α : Type} (l : List α) (i : Nat) (v : α) (h : i < l.length) :
    (l.set i v).take (i + 1) = l.take i ++ [v] := by
  induction l generalizing i with
  | nil => simp at h
  | cons a l ih =>
    cases i with
    | zero => simp
    | succ i => simp at h; simp [ih i h]

theorem first_line_cons (c : Char) (s : List Char) :
    first_line (c :: s) = if c = '\n' then [] else c :: first_line s := by
  by_cases hc : c = '\n' <;> simp [first_line, List.takeWhile, hc]

theorem after_line_cons (c : Char) (s : List Char) :
    after_line (c :: s) = if c = '\n' then s else after_line s := by
  by_cases hc : c = '\n' <;> simp [after_line, List.dropWhile, hc]

theorem int_add_cast (a b : Nat) (h : a + b ≤ 2147483647) :
    int_add (a : Int) (b : Int) = ((a + b : Nat) : Int) := by
  unfold int_add
  omega

theorem size_t_cast (n : Nat) (h : n < 18446744073709551616) : size_t (n : Int) = n := by
  unfold size_t
  omega

theorem store_at_cast {α : Type} (block : List α) (p : Nat) (v : α) :
    store_at block (p : Int) v = store block p v := by
  simp [store_at]

theorem realloc_chars_grow (h : Heap) (halloc : ∀ n, h.avail n = true) (block : List Char)
    (n : Nat) (hn : n ≤ PTRDIFF_MAX) (hle : block.length ≤ n) :
    realloc_chars h block n
      = some (block ++ (List.range' block.length (n - block.length)).map h.junk) := by
  simp [realloc_chars, halloc, hn, List.take_of_length_le hle]

theorem read_loop_nil (h : Heap) (bufsize position : Int) (buffer : List Char) :
    read_loop h [] bufsize position buffer
      = match store_at buffer position NUL with
        | none => Outcome.fault
        | some buffer => Outcome.ret (buffer, []) := rfl

theorem read_loop_newline (h : Heap) (rest : List Char) (bufsize position : Int)
    (buffer : List Char) :
    read_loop h ('\n' :: rest) bufsize position buffer
      = match store_at buffer position NUL with
        | none => Outcome.fault
        | some buffer => Outcome.ret (buffer, rest) := rfl

theorem read_loop_char (h : Heap) (c : Char) (rest : List Char) (bufsize position : Int)
    (buffer : List Char) (hc : c ≠ '\n') :
    read_loop h (c :: rest) bufsize position buffer
      = match store_at buffer position c with
        | none => Outcome.fault
        | some buffer =>
          if int_add position 1 ≥ bufsize then
            match realloc_chars h buffer (size_t (int_add bufsize CSHELL_RL_BUFSIZE)) with
            | none => Outcome.fatal
            | some buffer =>
              read_loop h rest (int_add bufsize CSHELL_RL_BUFSIZE) (int_add position 1) buffer
          else read_loop h rest bufsize (int_add position 1) buffer := by
  have : read_loop h (c :: rest) bufsize position buffer
      = if c = '\n' then
          match store_at buffer position NUL with
          | none => Outcome.fault
          | some buffer => Outcome.ret (buffer, rest)
        else
          match store_at buffer position c with
          | none => Outcome.fault
          | some buffer =>
            if int_add position 1 ≥ bufsize then
              match realloc_chars h buffer (size_t (int_add bufsize CSHELL_RL_BUFSIZE)) with
              | none => Outcome.fatal
              | some buffer =>
                read_loop h rest (int_add bufsize CSHELL_RL_BUFSIZE) (int_add position 1) buffer
            else read_loop h rest bufsize (int_add position 1) buffer := rfl
  rw [this, if_neg hc]

theorem read_loop_char_small (h : Heap) (c : Char) (rest : List Char) (bufsize position : Int)
    (buffer buffer2 : List Char) (hc : c ≠ '\n')
    (hst : store_at buffer position c = some buffer2)
    (hsmall : ¬ int_add position 1 ≥ bufsize) :
    read_loop h (c :: rest) bufsize position buffer
      = read_loop h rest bufsize (int_add position 1) buffer2 := by
  rw [read_loop_char h c rest _ _ _ hc, hst]
  exact if_neg hsmall

theorem read_loop_char_grow (h : Heap) (c : Char) (rest : List Char) (bufsize position : Int)
    (buffer buffer2 buffer3 : List Char) (hc : c ≠ '\n')
    (hst : store_at buffer position c = some buffer2)
    (hfull : int_add position 1 ≥ bufsize)
    (hre : realloc_chars h buffer2 (size_t (int_add bufsize CSHELL_RL_BUFSIZE)) = some buffer3) :
    read_loop h (c :: rest) bufsize position buffer
      = read_loop h rest (int_add bufsize CSHELL_RL_BUFSIZE) (int_add position 1) buffer3 := by
  rw [read_loop_char h c rest _ _ _ hc, hst]
  show (if int_add position 1 ≥ bufsize then
      match realloc_chars h buffer2 (size_t (int_add bufsize CSHELL_RL_BUFSIZE)) with
      | none => Outcome.fatal
      | some buffer =>
        read_loop h rest (int_add bufsize CSHELL_RL_BUFSIZE) (int_add position 1) buffer
    else read_loop h rest bufsize (int_add position 1) buffer2) = _
  rw [if_pos hfull, hre]

theorem read_loop_char_fatal (h : Heap) (c : Char) (rest : List Char) (bufsize position : Int)
    (buffer buffer2 : List Char) (hc : c ≠ '\n')
    (hst : store_at buffer position c = some buffer2)
    (hfull : int_add position 1 ≥ bufsize)
    (hre : realloc_chars h buffer2 (size_t (int_add bufsize CSHELL_RL_BUFSIZE)) = none) :
    read_loop h (c :: rest) bufsize position buffer = Outcome.fatal := by
  rw [read_loop_char h c rest _ _ _ hc, hst]
  show (if int_add position 1 ≥ bufsize then
      match realloc_chars h buffer2 (size_t (int_add bufsize CSHELL_RL_BUFSIZE)) with
      | none => Outcome.fatal
      | some buffer =>
        read_loop h rest (int_add bufsize CSHELL_RL_BUFSIZE) (int_add position 1) buffer
    else read_loop h rest bufsize (int_add position 1) buffer2) = _
  rw [if_pos hfull, hre]

/-- The loop of `cshell_read_line`, started with `position` characters in a
buffer of the size the growth policy gives, on a line that leaves `bufsize`
below `INT_MAX`: it returns the buffer with the line appended and terminated. -/
theorem read_loop_spec (h : Heap) (halloc : ∀ n, h.avail n = true) :
    ∀ (stdin : List Char) (bufsize position : Nat) (buffer : List Char),
      buffer.length = bufsize → position < bufsize →
      bufsize = CSHELL_RL_BUFSIZE * (position / CSHELL_RL_BUFSIZE + 1) →
      position + (first_line stdin).length < LINE_LIMIT →
      ∃ b, read_loop h stdin (bufsize : Int) (position : Int) buffer
          = Outcome.ret (b, after_line stdin) ∧
        b.take (position + (first_line stdin).length) = buffer.take position ++ first_line stdin ∧
        b[position + (first_line stdin).length]? = some NUL ∧
        b.length =
          CSHELL_RL_BUFSIZE * ((position + (first_line stdin).length) / CSHELL_RL_BUFSIZE + 1) := by
  intro stdin
  induction stdin with
  | nil =>
    intro bufsize position buffer hlen hpos hcap _
    have hst0 : store_at buffer (position : Int) NUL = some (buffer.set position NUL) := by
      rw [store_at_cast]; exact store_eq_some _ _ _ (by omega)
    refine ⟨buffer.set position NUL, ?_, ?_, ?_, ?_⟩
    · rw [read_loop_nil, hst0]
      rfl
    · simp [first_line, take_set_self]
    · simp [first_line, hlen, hpos]
    · simp [first_line, hlen, hcap]
  | cons c rest ih =>
    intro bufsize position buffer hlen hpos hcap hshort
    by_cases hc : c = '\n'
    · have hst0 : store_at buffer (position : Int) NUL = some (buffer.set position NUL) := by
        rw [store_at_cast]; exact store_eq_some _ _ _ (by omega)
      refine ⟨buffer.set position NUL, ?_, ?_, ?_, ?_⟩
      · rw [hc, read_loop_newline, hst0]
        simp [after_line_cons]
      · simp [first_line_cons, hc, take_set_self]
      · simp [first_line_cons, hc, hlen, hpos]
      · simp [first_line_cons, hc, hlen, hcap]
    · have e : position + (first_line (c :: rest)).length
          = position + 1 + (first_line rest).length := by
        simp [first_line_cons, hc]; omega
      have hshort2 : position + 1 + (first_line rest).length < LINE_LIMIT := by
        rw [← e]; exact hshort
      have hp1 : position + 1 < 2147482624 := by
        simp only [LINE_LIMIT] at hshort2; omega
      have hst : store_at buffer (position : Int) c = some (buffer.set position c) := by
        rw [store_at_cast]; exact store_eq_some _ _ _ (by omega)
      have hadd : int_add (position : Int) 1 = ((position + 1 : Nat) : Int) :=
        int_add_cast position 1 (by omega)
      by_cases hfull : position + 1 ≥ bufsize
      · -- the buffer is full: it grows by one increment
        have hfull2 : ((position + 1 : Nat) : Int) ≥ (bufsize : Int) := by omega
        have hb : bufsize = position + 1 := by omega
        have hadd2 : int_add (bufsize : Int) (CSHELL_RL_BUFSIZE : Int)
            = ((bufsize + CSHELL_RL_BUFSIZE : Nat) : Int) :=
          int_add_cast bufsize CSHELL_RL_BUFSIZE (by simp only [CSHELL_RL_BUFSIZE]; omega)
        have hsz : size_t ((bufsize + CSHELL_RL_BUFSIZE : Nat) : Int)
            = bufsize + CSHELL_RL_BUFSIZE :=
          size_t_cast _ (by simp only [CSHELL_RL_BUFSIZE]; omega)
        have hre : realloc_chars h (buffer.set position c) (bufsize + CSHELL_RL_BUFSIZE)
            = some (buffer.set position c ++
                (List.range' bufsize CSHELL_RL_BUFSIZE).map h.junk) := by
          rw [realloc_chars_grow h halloc _ _
            (by simp only [CSHELL_RL_BUFSIZE, PTRDIFF_MAX]; omega) (by simp [hlen])]
          simp [hlen]
        obtain ⟨b, hb1, hb2, hb3, hb4⟩ := ih (bufsize + CSHELL_RL_BUFSIZE) (position + 1)
          (buffer.set position c ++ (List.range' bufsize CSHELL_RL_BUFSIZE).map h.junk)
          (by simp [hlen]) (by simp [CSHELL_RL_BUFSIZE]; omega)
          (by simp only [CSHELL_RL_BUFSIZE] at *; omega) hshort2
        refine ⟨b, ?_, ?_, ?_, ?_⟩
        · rw [read_loop_char_grow h c rest _ _ _ _ _ hc hst (by rw [hadd]; exact hfull2)
            (by rw [hadd2, hsz]; exact hre), hadd, hadd2, after_line_cons, if_neg hc]
          exact hb1
        · rw [e, hb2, List.take_append_of_le_length (by simp [hlen]; omega),
            take_succ_set _ _ _ (by omega)]
          simp [first_line_cons, hc]
        · rw [e]; exact hb3
        · rw [e]; exact hb4
      · have hfull2 : ¬ ((position + 1 : Nat) : Int) ≥ (bufsize : Int) := by omega
        obtain ⟨b, hb1, hb2, hb3, hb4⟩ := ih bufsize (position + 1)
          (buffer.set position c) (by simp [hlen]) (by omega)
          (by simp only [CSHELL_RL_BUFSIZE] at *; omega) hshort2
        refine ⟨b, ?_, ?_, ?_, ?_⟩
        · rw [read_loop_char_small h c rest _ _ _ _ hc hst (by rw [hadd]; exact hfull2),
            hadd, after_line_cons, if_neg hc]
          exact hb1
        · rw [e, hb2, take_succ_set _ _ _ (by omega)]
          simp [first_line_cons, hc]
        · rw [e]; exact hb3
        · rw [e]; exact hb4


/-- The loop of `cshell_read_line` over a run of characters that are not
newlines and leave `bufsize` below `INT_MAX`: it goes on with the rest of the
input, in a buffer of the size the growth policy gives. -/
theorem read_loop_run (h : Heap) (halloc : ∀ n, h.avail n = true) :
    ∀ (pre rest : List Char) (bufsize position : Nat) (buffer : List Char),
      (∀ x ∈ pre, x ≠ '\n') →
      buffer.length = bufsize → position < bufsize →
      bufsize = CSHELL_RL_BUFSIZE * (position / CSHELL_RL_BUFSIZE + 1) →
      position + pre.length < LINE_LIMIT →
      ∃ b, read_loop h (pre ++ rest) (bufsize : Int) (position : Int) buffer
          = read_loop h rest
              ((CSHELL_RL_BUFSIZE * ((position + pre.length) / CSHELL_RL_BUFSIZE + 1) : Nat) : Int)
              ((position + pre.length : Nat) : Int) b ∧
        b.length = CSHELL_RL_BUFSIZE * ((position + pre.length) / CSHELL_RL_BUFSIZE + 1) := by
  intro pre
  induction pre with
  | nil =>
    intro rest bufsize position buffer _ hlen _ hcap _
    refine ⟨buffer, ?_, ?_⟩
    · simp only [List.nil_append, List.length_nil, Nat.add_zero, ← hcap]
    · simp only [List.length_nil, Nat.add_zero, ← hcap, hlen]
  | cons c pre ih =>
    intro rest bufsize position buffer hpre hlen hpos hcap hshort
    have hc : c ≠ '\n' := hpre c (by simp)
    have hpre2 : ∀ x ∈ pre, x ≠ '\n' := fun x hx => hpre x (by simp [hx])
    have e : position + (c :: pre).length = position + 1 + pre.length := by
      simp only [List.length_cons]; omega
    have hshort2 : position + 1 + pre.length < LINE_LIMIT := by
      rw [← e]; exact hshort
    have hp1 : position + 1 < 2147482624 := by
      simp only [LINE_LIMIT] at hshort2; omega
    have hst : store_at buffer (position : Int) c = some (buffer.set position c) := by
      rw [store_at_cast]; exact store_eq_some _ _ _ (by omega)
    have hadd : int_add (position : Int) 1 = ((position + 1 : Nat) : Int) :=
      int_add_cast position 1 (by omega)
    by_cases hfull : position + 1 ≥ bufsize
    · have hfull2 : ((position + 1 : Nat) : Int) ≥ (bufsize : Int) := by omega
      have hb : bufsize = position + 1 := by omega
      have hadd2 : int_add (bufsize : Int) (CSHELL_RL_BUFSIZE : Int)
          = ((bufsize + CSHELL_RL_BUFSIZE : Nat) : Int) :=
        int_add_cast bufsize CSHELL_RL_BUFSIZE (by simp only [CSHELL_RL_BUFSIZE]; omega)
      have hsz : size_t ((bufsize + CSHELL_RL_BUFSIZE : Nat) : Int)
          = bufsize + CSHELL_RL_BUFSIZE :=
        size_t_cast _ (by simp only [CSHELL_RL_BUFSIZE]; omega)
      have hre : realloc_chars h (buffer.set position c) (bufsize + CSHELL_RL_BUFSIZE)
          = some (buffer.set position c ++
              (List.range' bufsize CSHELL_RL_BUFSIZE).map h.junk) := by
        rw [realloc_chars_grow h halloc _ _
          (by simp only [CSHELL_RL_BUFSIZE, PTRDIFF_MAX]; omega) (by simp [hlen])]
        simp [hlen]
      obtain ⟨b, hb1, hb2⟩ := ih rest (bufsize + CSHELL_RL_BUFSIZE) (position + 1)
        (buffer.set position c ++ (List.range' bufsize CSHELL_RL_BUFSIZE).map h.junk)
        hpre2 (by simp [hlen]) (by simp [CSHELL_RL_BUFSIZE]; omega)
        (by simp only [CSHELL_RL_BUFSIZE] at *; omega) hshort2
      refine ⟨b, ?_, ?_⟩
      · rw [List.cons_append, read_loop_char_grow h c (pre ++ rest) _ _ _ _ _ hc hst
          (by rw [hadd]; exact hfull2) (by rw [hadd2, hsz]; exact hre), hadd, hadd2, e]
        exact hb1
      · rw [e]; exact hb2
    · have hfull2 : ¬ ((position + 1 : Nat) : Int) ≥ (bufsize : Int) := by omega
      obtain ⟨b, hb1, hb2⟩ := ih rest bufsize (position + 1)
        (buffer.set position c) hpre2 (by simp [hlen]) (by omega)
        (by simp only [CSHELL_RL_BUFSIZE] at *; omega) hshort2
      refine ⟨b, ?_, ?_⟩
      · rw [List.cons_append, read_loop_char_small h c (pre ++ rest) _ _ _ _ hc hst
          (by rw [hadd]; exact hfull2), hadd, e]
        exact hb1
      · rw [e]; exact hb2

theorem malloc_chars_first (h : Heap) (halloc : ∀ n, h.avail n = true) :
    malloc_chars h (size_t ((CSHELL_RL_BUFSIZE : Nat) : Int))
      = some ((List.range CSHELL_RL_BUFSIZE).map h.junk) := by
  rw [size_t_cast _ (by decide)]
  simp [malloc_chars, halloc, CSHELL_RL_BUFSIZE, PTRDIFF_MAX]

/-- A line of `INT_MAX + 1 - CSHELL_RL_BUFSIZE` characters or more makes
`bufsize` wrap: the request that follows is refused and the reader ends in
the allocation error. -/
theorem read_line_overflow (h : Heap) (halloc : ∀ n, h.avail n = true)
    (pre : List Char) (c : Char) (rest : List Char)
    (hpre : ∀ x ∈ pre, x ≠ '\n') (hc : c ≠ '\n') (hlong : pre.length + 1 = LINE_LIMIT) :
    cshell_read_line h (pre ++ c :: rest) = Outcome.fatal := by
  obtain ⟨b, hb1, hb2⟩ := read_loop_run h halloc pre (c :: rest) CSHELL_RL_BUFSIZE 0
    ((List.range CSHELL_RL_BUFSIZE).map h.junk) hpre (by simp) (by decide) (by decide)
    (by omega)
  have hpl : pre.length = 2147482623 := by
    simp only [LINE_LIMIT] at hlong; omega
  simp only [Nat.zero_add, hpl, CSHELL_RL_BUFSIZE] at hb1 hb2
  have hcap : 1024 * (2147482623 / 1024 + 1) = 2147482624 := by decide
  rw [hcap] at hb1 hb2
  have hst : store_at b ((2147482623 : Nat) : Int) c = some (b.set 2147482623 c) := by
    rw [store_at_cast]; exact store_eq_some _ _ _ (by omega)
  have hadd : int_add ((2147482623 : Nat) : Int) 1 = 2147482624 := by decide
  have hwrap : int_add ((2147482624 : Nat) : Int) ((CSHELL_RL_BUFSIZE : Nat) : Int)
      = -2147483648 := by decide
  have hsz : size_t (-2147483648) = 18446744071562067968 := by decide
  have hre : realloc_chars h (b.set 2147482623 c)
      (size_t (int_add ((2147482624 : Nat) : Int) ((CSHELL_RL_BUFSIZE : Nat) : Int))) = none := by
    rw [hwrap, hsz]
    simp [realloc_chars, PTRDIFF_MAX]
  have hm := malloc_chars_first h halloc
  simp only [CSHELL_RL_BUFSIZE] at hm
  unfold cshell_read_line
  simp only [CSHELL_RL_BUFSIZE, hm]
  show read_loop h (pre ++ c :: rest) ((1024 : Nat) : Int) ((0 : Nat) : Int) _ = _
  rw [hb1]
  exact read_loop_char_fatal h c rest _ _ _ _ hc hst (by rw [hadd]; decide) hre

/-! ## Proofs: tokenizer -/

theorem getD_append_cons {α : Type} (pre : List α) (x : α) (rest : List α) (d : α) :
    (pre ++ x :: rest).getD pre.length d = x := by
  induction pre with
  | nil => rfl
  | cons a pre ih => simpa using ih

theorem set_append_cons {α : Type} (pre : List α) (x v : α) (rest : List α) :
    (pre ++ x :: rest).set pre.length v = pre ++ v :: rest := by
  induction pre with
  | nil => rfl
  | cons a pre ih => simp

theorem drop_append_self {α : Type} (pre rest : List α) :
    (pre ++ rest).drop pre.length = rest := by
  simp

theorem NUL_not_delim : is_delim NUL = false := by decide

theorem mem_delim_iff (c : Char) : c ∈ CSHELL_TOK_DELIM ↔ is_delim c = true := by
  simp [is_delim]

theorem str_at_append (pre t tail : List Char) (ht : NUL ∉ t) :
    str_at (pre ++ t ++ NUL :: tail) pre.length = t := by
  have : (pre ++ t ++ NUL :: tail).drop pre.length = t ++ NUL :: tail := by
    rw [List.append_assoc, drop_append_self]
  rw [str_at, this]
  induction t with
  | nil => simp [List.takeWhile]
  | cons a t ih =>
    have ha : a ≠ NUL := fun e => ht (by simp [e])
    have ht2 : NUL ∉ t := fun e => ht (by simp [e])
    simp [List.takeWhile, ha]
    simpa using ih ht2 (by simp)

theorem strspn_delims (d rest : List Char) (hd : ∀ x ∈ d, is_delim x = true)
    (hrest : ∀ c ∈ rest.head?, is_delim c = false) :
    strspn (d ++ rest) CSHELL_TOK_DELIM = d.length := by
  induction d with
  | nil =>
    cases rest with
    | nil => rfl
    | cons c rest =>
      have hc : is_delim c = false := hrest c (by simp)
      have : c ∉ CSHELL_TOK_DELIM := by rw [mem_delim_iff]; simp [hc]
      simp [strspn, this]
  | cons a d ih =>
    have ha : is_delim a = true := hd a (by simp)
    have h1 : a ∈ CSHELL_TOK_DELIM := (mem_delim_iff a).2 ha
    have h2 : a ≠ NUL := by
      intro e; rw [e, NUL_not_delim] at ha; exact Bool.noConfusion ha
    simp only [List.cons_append, strspn, h1, h2, ne_eq, not_false_eq_true, and_self, if_true,
      List.length_cons]
    exact congrArg (fun n => n + 1) (ih (fun x hx => hd x (by simp [hx])))

theorem strcspn_word (t rest : List Char) (ht : ∀ x ∈ t, is_delim x = false) (hn : NUL ∉ t)
    (hrest : ∀ c ∈ rest.head?, c = NUL ∨ is_delim c = true) :
    strcspn (t ++ rest) CSHELL_TOK_DELIM = t.length := by
  induction t with
  | nil =>
    cases rest with
    | nil => rfl
    | cons c rest =>
      have hc := hrest c (by simp)
      rw [← mem_delim_iff] at hc
      simp [strcspn, hc]
  | cons a t ih =>
    have ha : is_delim a = false := ht a (by simp)
    have h1 : a ∉ CSHELL_TOK_DELIM := by rw [mem_delim_iff]; simp [ha]
    have h2 : a ≠ NUL := fun e => hn (by simp [e])
    simp only [List.cons_append, strcspn, h1, h2, or_self, if_false, List.length_cons]
    exact congrArg (fun n => n + 1)
      (ih (fun x hx => ht x (by simp [hx])) (fun e => hn (by simp [e])))

theorem tokenize_nil : tokenize [] = [] := by decide

theorem tokenize_delim_cons (c : Char) (s : List Char) (hc : is_delim c = true) :
    tokenize (c :: s) = tokenize s := by
  simp [tokenize, List.splitOnP_cons, hc]

theorem tokenize_word (t : List Char) (ht : ∀ x ∈ t, is_delim x = false) (hne : t ≠ []) :
    tokenize t = [t] := by
  have : t.splitOnP is_delim = [t] :=
    List.splitOnP_eq_single is_delim t (fun x hx => by simp [ht x hx])
  simp [tokenize, this, hne]

theorem tokenize_word_cons (t : List Char) (c : Char) (s : List Char)
    (ht : ∀ x ∈ t, is_delim x = false) (hne : t ≠ []) (hc : is_delim c = true) :
    tokenize (t ++ c :: s) = t :: tokenize s := by
  have : (t ++ c :: s).splitOnP is_delim = t :: s.splitOnP is_delim :=
    List.splitOnP_first is_delim t (fun x hx => by simp [ht x hx]) c hc s
  simp [tokenize, this, hne]

theorem tokenize_delims_append (d s : List Char) (hd : ∀ x ∈ d, is_delim x = true) :
    tokenize (d ++ s) = tokenize s := by
  induction d with
  | nil => rfl
  | cons a d ih =>
    rw [List.cons_append, tokenize_delim_cons _ _ (hd a (by simp))]
    exact ih (fun x hx => hd x (by simp [hx]))

/-- The call `strtok(NULL, delim)` when only delimiters are left before the terminator. -/
theorem strtok_none (pre d tail : List Char) (hd : ∀ x ∈ d, is_delim x = true) :
    strtok none CSHELL_TOK_DELIM ⟨pre ++ d ++ NUL :: tail, pre.length⟩
      = (none, ⟨pre ++ d ++ NUL :: tail, pre.length + d.length⟩) := by
  have h1 : (pre ++ d ++ NUL :: tail).drop pre.length = d ++ NUL :: tail := by
    rw [List.append_assoc, drop_append_self]
  have h2 : strspn (d ++ NUL :: tail) CSHELL_TOK_DELIM = d.length :=
    strspn_delims d _ hd (by simp [NUL_not_delim])
  have h3 : (pre ++ d ++ NUL :: tail).getD (pre.length + d.length) NUL = NUL := by
    have := getD_append_cons (pre ++ d) NUL tail NUL
    simpa using this
  simp only [strtok, h1, h2, h3, if_true]

/-- The call `strtok(NULL, delim)` when the token found ends at the terminator. -/
theorem strtok_last (pre d t tail : List Char) (hd : ∀ x ∈ d, is_delim x = true)
    (ht : ∀ x ∈ t, is_delim x = false) (hn : NUL ∉ t) (hne : t ≠ []) :
    strtok none CSHELL_TOK_DELIM ⟨pre ++ d ++ t ++ NUL :: tail, pre.length⟩
      = (some (pre.length + d.length),
          ⟨pre ++ d ++ t ++ NUL :: tail, pre.length + d.length + t.length⟩) := by
  obtain ⟨a, t, rfl⟩ := List.exists_cons_of_ne_nil hne
  have ha : is_delim a = false := ht a (by simp)
  have ha2 : a ≠ NUL := fun e => hn (by simp [e])
  have h1 : (pre ++ d ++ a :: t ++ NUL :: tail).drop pre.length
      = d ++ ((a :: t) ++ NUL :: tail) := by
    rw [List.append_assoc, List.append_assoc, drop_append_self]
  have h2 : strspn (d ++ ((a :: t) ++ NUL :: tail)) CSHELL_TOK_DELIM = d.length :=
    strspn_delims d _ hd (by simp [ha])
  have h3 : (pre ++ d ++ a :: t ++ NUL :: tail).getD (pre.length + d.length) NUL = a := by
    have := getD_append_cons (pre ++ d) a (t ++ NUL :: tail) NUL
    simpa using this
  have h4 : (pre ++ d ++ a :: t ++ NUL :: tail).drop (pre.length + d.length)
      = (a :: t) ++ NUL :: tail := by
    simp
  have h5 : strcspn ((a :: t) ++ NUL :: tail) CSHELL_TOK_DELIM = (a :: t).length :=
    strcspn_word (a :: t) _ ht hn (by simp)
  have h6 : (pre ++ d ++ a :: t ++ NUL :: tail).getD
      (pre.length + d.length + (a :: t).length) NUL = NUL := by
    have e : pre.length + d.length + (a :: t).length = (pre ++ d ++ a :: t).length := by
      simp [Nat.add_assoc]
    rw [e]; exact getD_append_cons _ _ _ _
  simp only [strtok, h1, h2, h3, ha2, if_false, h4, h5, h6, if_true]

/-- The call `strtok(NULL, delim)` when the token found ends at a delimiter:
the delimiter is overwritten with the terminator. -/
theorem strtok_more (pre d t : List Char) (c : Char) (rest : List Char)
    (hd : ∀ x ∈ d, is_delim x = true) (ht : ∀ x ∈ t, is_delim x = false) (hn : NUL ∉ t)
    (hne : t ≠ []) (hc : is_delim c = true) :
    strtok none CSHELL_TOK_DELIM ⟨pre ++ d ++ t ++ c :: rest, pre.length⟩
      = (some (pre.length + d.length),
          ⟨pre ++ d ++ t ++ NUL :: rest, pre.length + d.length + t.length + 1⟩) := by
  obtain ⟨a, t, rfl⟩ := List.exists_cons_of_ne_nil hne
  have ha : is_delim a = false := ht a (by simp)
  have ha2 : a ≠ NUL := fun e => hn (by simp [e])
  have hc2 : c ≠ NUL := by
    intro e; rw [e, NUL_not_delim] at hc; exact Bool.noConfusion hc
  have h1 : (pre ++ d ++ a :: t ++ c :: rest).drop pre.length
      = d ++ ((a :: t) ++ c :: rest) := by
    rw [List.append_assoc, List.append_assoc, drop_append_self]
  have h2 : strspn (d ++ ((a :: t) ++ c :: rest)) CSHELL_TOK_DELIM = d.length :=
    strspn_delims d _ hd (by simp [ha])
  have h3 : (pre ++ d ++ a :: t ++ c :: rest).getD (pre.length + d.length) NUL = a := by
    have := getD_append_cons (pre ++ d) a (t ++ c :: rest) NUL
    simpa using this
  have h4 : (pre ++ d ++ a :: t ++ c :: rest).drop (pre.length + d.length)
      = (a :: t) ++ c :: rest := by
    simp
  have h5 : strcspn ((a :: t) ++ c :: rest) CSHELL_TOK_DELIM = (a :: t).length :=
    strcspn_word (a :: t) _ ht hn (by simp [hc])
  have h6 : (pre ++ d ++ a :: t ++ c :: rest).getD
      (pre.length + d.length + (a :: t).length) NUL = c := by
    have e : pre.length + d.length + (a :: t).length = (pre ++ d ++ a :: t).length := by
      simp [Nat.add_assoc]
    rw [e]; exact getD_append_cons _ _ _ _
  have h7 : (pre ++ d ++ a :: t ++ c :: rest).set
      (pre.length + d.length + (a :: t).length) NUL = pre ++ d ++ a :: t ++ NUL :: rest := by
    have e : pre.length + d.length + (a :: t).length = (pre ++ d ++ a :: t).length := by
      simp [Nat.add_assoc]
    rw [e]; exact set_append_cons _ _ _ _
  simp only [strtok, h1, h2, h3, ha2, if_false, h4, h5, h6, hc2, h7]

theorem delim_run (r : List Char) :
    ∃ d r1, r = d ++ r1 ∧ (∀ x ∈ d, is_delim x = true) ∧ (∀ c ∈ r1.head?, is_delim c = false) := by
  induction r with
  | nil => exact ⟨[], [], rfl, by simp, by simp⟩
  | cons a r ih =>
    by_cases ha : is_delim a = true
    · obtain ⟨d, r1, e, hd, hr⟩ := ih
      refine ⟨a :: d, r1, by simp [e], ?_, hr⟩
      intro x hx
      rcases List.mem_cons.1 hx with rfl | hx
      · exact ha
      · exact hd x hx
    · exact ⟨[], a :: r, rfl, by simp, by simpa using ha⟩

theorem word_run (r : List Char) :
    ∃ t r2, r = t ++ r2 ∧ (∀ x ∈ t, is_delim x = false) ∧ (∀ c ∈ r2.head?, is_delim c = true) := by
  induction r with
  | nil => exact ⟨[], [], rfl, by simp, by simp⟩
  | cons a r ih =>
    by_cases ha : is_delim a = true
    · exact ⟨[], a :: r, rfl, by simp, by simpa using ha⟩
    · obtain ⟨t, r2, e, ht, hr⟩ := ih
      refine ⟨a :: t, r2, by simp [e], ?_, hr⟩
      intro x hx
      rcases List.mem_cons.1 hx with rfl | hx
      · simpa using ha
      · exact ht x hx

theorem store_slot (old : List Nat) (bufsize : Nat) (v : Slot) (hlt : old.length < bufsize) :
    store (old.map Slot.ptr ++ List.replicate (bufsize - old.length) Slot.unset) old.length v
      = some (old.map Slot.ptr ++ v :: List.replicate (bufsize - (old.length + 1)) Slot.unset) := by
  have e : bufsize - old.length = (bufsize - (old.length + 1)) + 1 := by omega
  have hs := set_append_cons (old.map Slot.ptr) Slot.unset v
    (List.replicate (bufsize - (old.length + 1)) Slot.unset)
  rw [List.length_map] at hs
  rw [store_eq_some _ _ _ (by simp; omega), e, List.replicate_succ, hs]

theorem realloc_slots_grow (h : Heap) (halloc : ∀ n, h.avail n = true) (block : List Slot)
    (n : Nat) (hle : block.length ≤ n) :
    realloc_slots h block n = some (block ++ List.replicate (n - block.length) Slot.unset) := by
  simp [realloc_slots, halloc, List.take_of_length_le hle]

/-- One iteration of the loop of `cshell_split_line`: the pointer is stored
in the next free cell and the array grows by one increment when it is full. -/
theorem split_loop_step (h : Heap) (halloc : ∀ n, h.avail n = true) (fuel s : Nat)
    (old : List Nat) (bufsize : Nat) (st : Strtok)
    (hcap : bufsize = CSHELL_TOK_BUFSIZE * (old.length / CSHELL_TOK_BUFSIZE + 1)) :
    split_loop h (fuel + 1) (some s) bufsize old.length
        (old.map Slot.ptr ++ List.replicate (bufsize - old.length) Slot.unset) st
      = split_loop h fuel (strtok none CSHELL_TOK_DELIM st).1
          (CSHELL_TOK_BUFSIZE * ((old ++ [s]).length / CSHELL_TOK_BUFSIZE + 1))
          (old ++ [s]).length
          ((old ++ [s]).map Slot.ptr ++ List.replicate
            (CSHELL_TOK_BUFSIZE * ((old ++ [s]).length / CSHELL_TOK_BUFSIZE + 1)
              - (old ++ [s]).length) Slot.unset)
          (strtok none CSHELL_TOK_DELIM st).2 := by
  have hlt : old.length < bufsize := by
    simp only [CSHELL_TOK_BUFSIZE] at hcap; omega
  have hst := store_slot old bufsize (Slot.ptr s) hlt
  have hshape : old.map Slot.ptr ++ Slot.ptr s ::
      List.replicate (bufsize - (old.length + 1)) Slot.unset
      = (old ++ [s]).map Slot.ptr ++ List.replicate (bufsize - (old.length + 1)) Slot.unset := by
    simp
  rw [hshape] at hst
  have hlen : (old ++ [s]).length = old.length + 1 := by simp
  by_cases hfull : old.length + 1 ≥ bufsize
  · have hb : bufsize = old.length + 1 := by omega
    have hnew : CSHELL_TOK_BUFSIZE * ((old ++ [s]).length / CSHELL_TOK_BUFSIZE + 1)
        = bufsize + CSHELL_TOK_BUFSIZE := by
      rw [hlen]; simp only [CSHELL_TOK_BUFSIZE] at *; omega
    have hre := realloc_slots_grow h halloc
      ((old ++ [s]).map Slot.ptr ++ List.replicate (bufsize - (old.length + 1)) Slot.unset)
      (bufsize + CSHELL_TOK_BUFSIZE) (by simp; omega)
    have hz : bufsize - (old.length + 1) = 0 := by omega
    rw [hz] at hre hst
    simp only [List.replicate_zero, List.append_nil, List.length_map] at hre hst
    rw [hnew, hlen]
    rw [hlen] at hre
    simp only [split_loop, hst, hfull, if_true, hre]
  · have hnew : CSHELL_TOK_BUFSIZE * ((old ++ [s]).length / CSHELL_TOK_BUFSIZE + 1)
        = bufsize := by
      rw [hlen]; simp only [CSHELL_TOK_BUFSIZE] at *; omega
    rw [hnew, hlen]
    simp only [split_loop, hst, hfull, if_false]

/-- The loop of `cshell_split_line`, started where `strtok` has `r` left to
scan, ends with the pointers to the tokens of `r` appended to the array, the
terminator after them, and the block changed only inside `r`. -/
theorem split_loop_spec (h : Heap) (halloc : ∀ n, h.avail n = true) :
    ∀ (fuel : Nat) (r pre tail : List Char) (old : List Nat),
      r.length ≤ fuel → NUL ∉ r →
      ∃ ptrs body,
        split_loop h fuel
            (strtok none CSHELL_TOK_DELIM ⟨pre ++ r ++ NUL :: tail, pre.length⟩).1
            (CSHELL_TOK_BUFSIZE * (old.length / CSHELL_TOK_BUFSIZE + 1)) old.length
            (old.map Slot.ptr ++ List.replicate
              (CSHELL_TOK_BUFSIZE * (old.length / CSHELL_TOK_BUFSIZE + 1) - old.length) Slot.unset)
            (strtok none CSHELL_TOK_DELIM ⟨pre ++ r ++ NUL :: tail, pre.length⟩).2
          = Outcome.ret
            ((old ++ ptrs).map Slot.ptr ++ Slot.null :: List.replicate
              (CSHELL_TOK_BUFSIZE * ((old ++ ptrs).length / CSHELL_TOK_BUFSIZE + 1)
                - ((old ++ ptrs).length + 1)) Slot.unset,
             pre ++ body ++ NUL :: tail) ∧
        ptrs.map (str_at (pre ++ body ++ NUL :: tail)) = tokenize r ∧
        body.length = r.length := by
  intro fuel
  induction fuel with
  | zero =>
    intro r pre tail old hlen _
    have hr : r = [] := List.eq_nil_of_length_eq_zero (by omega)
    subst hr
    refine ⟨[], [], ?_, by simp [tokenize_nil], rfl⟩
    have := strtok_none pre [] tail (by simp)
    simp only [List.append_nil, List.length_nil, Nat.add_zero] at this ⊢
    rw [this]
    have hlt : old.length < CSHELL_TOK_BUFSIZE * (old.length / CSHELL_TOK_BUFSIZE + 1) := by
      simp only [CSHELL_TOK_BUFSIZE]; omega
    simp only [split_loop, store_slot old _ Slot.null hlt]
  | succ fuel ih =>
    intro r pre tail old hlen hn
    have hlt : old.length < CSHELL_TOK_BUFSIZE * (old.length / CSHELL_TOK_BUFSIZE + 1) := by
      simp only [CSHELL_TOK_BUFSIZE]; omega
    obtain ⟨d, r1, hr, hd, hr1⟩ := delim_run r
    obtain ⟨t, r2, hr1', ht, hr2⟩ := word_run r1
    subst hr1' hr
    have hnt : NUL ∉ t := fun e => hn (by simp [e])
    by_cases hte : t = []
    · -- no further token
      subst hte
      have hr2nil : r2 = [] := by
        cases r2 with
        | nil => rfl
        | cons c r2 =>
          have h1 := hr1 c (by simp)
          have h2 := hr2 c (by simp)
          rw [h1] at h2; exact Bool.noConfusion h2
      subst hr2nil
      refine ⟨[], d, ?_, ?_, by simp⟩
      · have := strtok_none pre d tail hd
        simp only [List.append_nil] at this ⊢
        rw [this]
        simp only [split_loop, store_slot old _ Slot.null hlt]
      · have := tokenize_delims_append d [] hd
        simp only [List.append_nil] at this ⊢
        rw [this, tokenize_nil]; rfl
    · cases r2 with
      | nil =>
        -- the token ends at the terminator
        have hst := strtok_last pre d t tail hd ht hnt hte
        have hpre : pre.length + d.length + t.length = (pre ++ d ++ t).length := by
          simp [Nat.add_assoc]
        obtain ⟨ptrs, body, hrun, hstr, hbody⟩ :=
          ih [] (pre ++ d ++ t) tail (old ++ [pre.length + d.length]) (by simp) (by simp)
        have hb : body = [] := List.eq_nil_of_length_eq_zero hbody
        subst hb
        refine ⟨(pre.length + d.length) :: ptrs, d ++ t, ?_, ?_, by simp⟩
        · simp only [List.append_nil] at hrun ⊢
          rw [← List.append_assoc pre d t, hst]
          rw [split_loop_step h halloc fuel _ old _ _ rfl, hpre]
          simpa using hrun
        · simp only [List.append_nil] at hstr ⊢
          rw [tokenize_delims_append d t hd, tokenize_word t ht hte, List.map_cons]
          rw [tokenize_nil] at hstr
          have := str_at_append (pre ++ d) t tail hnt
          simp only [List.length_append, List.append_assoc] at this hstr ⊢
          rw [this, hstr]
      | cons c r3 =>
        -- the token ends at a delimiter
        have hc : is_delim c = true := hr2 c (by simp)
        have hst := strtok_more pre d t c (r3 ++ NUL :: tail) hd ht hnt hte hc
        have hpre : pre.length + d.length + t.length + 1 = (pre ++ d ++ t ++ [NUL]).length := by
          simp [Nat.add_assoc]
        have hn3 : NUL ∉ r3 := fun e => hn (by simp [e])
        obtain ⟨ptrs, body, hrun, hstr, hbody⟩ :=
          ih r3 (pre ++ d ++ t ++ [NUL]) tail (old ++ [pre.length + d.length])
            (by simp at hlen; omega) hn3
        refine ⟨(pre.length + d.length) :: ptrs, d ++ t ++ NUL :: body, ?_, ?_, ?_⟩
        · have e1 : pre ++ (d ++ (t ++ c :: r3)) ++ NUL :: tail
              = pre ++ d ++ t ++ c :: (r3 ++ NUL :: tail) := by simp
          have e2 : pre ++ d ++ t ++ NUL :: (r3 ++ NUL :: tail)
              = pre ++ d ++ t ++ [NUL] ++ r3 ++ NUL :: tail := by simp
          rw [e1, hst, split_loop_step h halloc fuel _ old _ _ rfl, hpre, e2]
          simpa using hrun
        · rw [tokenize_delims_append d _ hd, tokenize_word_cons t c r3 ht hte hc, List.map_cons]
          have := str_at_append (pre ++ d) t (body ++ NUL :: tail) hnt
          simp only [List.length_append, List.append_assoc, List.cons_append,
            List.nil_append] at this hstr ⊢
          rw [this, hstr]
        · simp [hbody]

theorem line_decompose (line : List Char) (hterm : NUL ∈ line) :
    ∃ tail, line = str_at line 0 ++ NUL :: tail ∧ NUL ∉ str_at line 0 := by
  induction line with
  | nil => simp at hterm
  | cons a line ih =>
    by_cases ha : a = NUL
    · exact ⟨line, by simp [str_at, List.takeWhile, ha], by simp [str_at, List.takeWhile, ha]⟩
    · have hmem : NUL ∈ line := by
        rcases List.mem_cons.1 hterm with e | e
        · exact absurd e.symm ha
        · exact e
      obtain ⟨tail, e, hn⟩ := ih hmem
      simp only [str_at, List.drop_zero] at e hn ⊢
      refine ⟨tail, ?_, ?_⟩
      · simp only [List.takeWhile, ha, ne_eq, not_false_eq_true, decide_True, List.cons_append]
        rw [← e]
      · simp only [List.takeWhile, ha, ne_eq, not_false_eq_true, decide_True, List.mem_cons,
          not_or]
        exact ⟨fun e => ha e.symm, hn⟩

theorem argv_ptrs (ptrs : List Nat) (rest : List Slot) (mem : List Char) :
    argv (ptrs.map Slot.ptr ++ Slot.null :: rest) mem = some (ptrs.map (str_at mem)) := by
  induction ptrs with
  | nil => rfl
  | cons p ptrs ih => simp [argv, ih]

/-- The tokenizer refines `tokenize`: on a block that holds the string `s`,
its terminator and anything after it, `cshell_split_line` returns the array of
the pointers to the tokens of `s`, the terminator after them, in a block of
the size the growth policy gives. -/
theorem split_line_spec (h : Heap) (halloc : ∀ n, h.avail n = true) (s tail : List Char)
    (hs : NUL ∉ s) :
    ∃ (ptrs : List Nat) (body : List Char),
      cshell_split_line h (s ++ NUL :: tail)
        = Outcome.ret
          (ptrs.map Slot.ptr ++ Slot.null :: List.replicate
            (CSHELL_TOK_BUFSIZE * (ptrs.length / CSHELL_TOK_BUFSIZE + 1) - (ptrs.length + 1))
            Slot.unset,
           body ++ NUL :: tail) ∧
      ptrs.map (str_at (body ++ NUL :: tail)) = tokenize s ∧ body.length = s.length := by
  obtain ⟨ptrs, body, hrun, hstr, hbody⟩ :=
    split_loop_spec h halloc (s ++ NUL :: tail).length s [] tail [] (by simp) hs
  refine ⟨ptrs, body, ?_, by simpa using hstr, hbody⟩
  have hm : malloc_slots h CSHELL_TOK_BUFSIZE
      = some (List.replicate CSHELL_TOK_BUFSIZE Slot.unset) := by
    simp [malloc_slots, halloc]
  have hfirst : strtok (some 0) CSHELL_TOK_DELIM ⟨s ++ NUL :: tail, 0⟩
      = strtok none CSHELL_TOK_DELIM ⟨s ++ NUL :: tail, 0⟩ := rfl
  simp only [cshell_split_line, hm, hfirst]
  simpa using hrun

theorem tokenize_nonempty (s t : List Char) (ht : t ∈ tokenize s) : t ≠ [] := by
  simp only [tokenize, List.mem_filter] at ht
  simpa using ht.2

theorem join_space_cons_cons (t u : List Char) (ts : List (List Char)) :
    join_space (t :: u :: ts) = t ++ ' ' :: join_space (u :: ts) := by
  simp [join_space, List.intercalate]

theorem tokenize_join_space (toks : List (List Char))
    (htok : ∀ t ∈ toks, t ≠ [] ∧ ∀ c ∈ t, c ∉ CSHELL_TOK_DELIM) :
    tokenize (join_space toks) = toks := by
  induction toks with
  | nil => decide
  | cons t ts ih =>
    have ht := htok t (by simp)
    have ht2 : ∀ x ∈ t, is_delim x = false := fun x hx => by
      have := ht.2 x hx
      rw [mem_delim_iff] at this
      simpa using this
    cases ts with
    | nil =>
      have : join_space [t] = t := by simp [join_space, List.intercalate]
      rw [this, tokenize_word t ht2 ht.1]
    | cons u us =>
      rw [join_space_cons_cons, tokenize_word_cons t ' ' _ ht2 ht.1 (by decide),
        ih (fun x hx => htok x (by simp [hx]))]

theorem NUL_not_mem_join_space (toks : List (List Char)) (htok : ∀ t ∈ toks, NUL ∉ t) :
    NUL ∉ join_space toks := by
  induction toks with
  | nil => simp [join_space, List.intercalate]
  | cons t ts ih =>
    cases ts with
    | nil =>
      have : join_space [t] = t := by simp [join_space, List.intercalate]
      rw [this]; exact htok t (by simp)
    | cons u us =>
      rw [join_space_cons_cons]
      have h1 := htok t (by simp)
      have h2 := ih (fun x hx => htok x (by simp [hx]))
      have h3 : NUL ≠ ' ' := by decide
      simp [h1, h2, h3]

theorem tokenize_delims (d : List Char) (hd : ∀ c ∈ d, c ∈ CSHELL_TOK_DELIM) :
    tokenize d = [] := by
  have := tokenize_delims_append d [] (fun x hx => (mem_delim_iff x).1 (hd x hx))
  simpa [tokenize_nil] using this

/-! ## Proofs: builtins, launcher, dispatcher -/

theorem strcmp_eq_zero_iff (a b : List Char) : strcmp a b = 0 ↔ a = b := by
  induction a generalizing b with
  | nil => cases b <;> simp [strcmp]
  | cons x a ih =>
    cases b with
    | nil => simp [strcmp]
    | cons y b =>
      by_cases hxy : x = y
      · simp [strcmp, hxy, ih]
      · by_cases hlt : x.toNat < y.toNat <;> simp [strcmp, hxy, hlt]

theorem execute_scan_table (args : Args) (arg0 : List Char) (w : World) :
    execute_scan args arg0 w (List.zip builtin_str builtin_func)
      = if arg0 = "help".toList then cshell_help args w
        else if arg0 = "cd".toList then cshell_cd args w
        else if arg0 = "exit".toList then cshell_exit args w
        else cshell_launch args w := by
  simp only [builtin_str, builtin_func, List.zip, List.zipWith, execute_scan,
    strcmp_eq_zero_iff]

theorem wait_loop_trace (pid : Nat) (reports : List WaitStatus) (w : World) :
    ∃ more, (wait_loop pid reports w).2.trace = w.trace ++ more ∧
      ∀ e ∈ more, e = Event.waitpid pid := by
  induction reports generalizing w with
  | nil => exact ⟨[Event.waitpid pid], rfl, by simp⟩
  | cons status reports ih =>
    by_cases hs : (!WIFEXITED status && !WIFSIGNALED status) = true
    · obtain ⟨more, h1, h2⟩ := ih (w.log (Event.waitpid pid))
      refine ⟨Event.waitpid pid :: more, ?_, ?_⟩
      · simp only [wait_loop, hs, if_true]
        rw [h1]
        simp [World.log]
      · intro e he
        rcases List.mem_cons.1 he with rfl | he
        · rfl
        · exact h2 e he
    · refine ⟨[Event.waitpid pid], ?_, by simp⟩
      simp only [wait_loop, hs, if_false, World.log]
      rfl

theorem wait_loop_fields (pid : Nat) (reports : List WaitStatus) (w : World) :
    (wait_loop pid reports w).2.stdin = w.stdin ∧ (wait_loop pid reports w).2.heap = w.heap ∧
      (wait_loop pid reports w).2.forks = w.forks ∧ (wait_loop pid reports w).2.cwd = w.cwd ∧
      (wait_loop pid reports w).2.reads = w.reads ∧
      (wait_loop pid reports w).2.runs = w.runs := by
  induction reports generalizing w with
  | nil => exact ⟨rfl, rfl, rfl, rfl, rfl, rfl⟩
  | cons status reports ih =>
    by_cases hs : (!WIFEXITED status && !WIFSIGNALED status) = true
    · simp only [wait_loop, hs, if_true]
      exact ih (w.log (Event.waitpid pid))
    · simp only [wait_loop, hs, if_false]
      exact ⟨rfl, rfl, rfl, rfl, rfl, rfl⟩

theorem wait_loop_returns (pid : Nat) (reports : List WaitStatus) (w : World)
    (hend : ∃ status ∈ reports, WIFEXITED status = true ∨ WIFSIGNALED status = true) :
    (wait_loop pid reports w).1 = Ending.ret 1 := by
  induction reports generalizing w with
  | nil => simp at hend
  | cons status reports ih =>
    by_cases hs : (!WIFEXITED status && !WIFSIGNALED status) = true
    · simp only [wait_loop, hs, if_true]
      apply ih
      obtain ⟨st, hst, hterm⟩ := hend
      rcases List.mem_cons.1 hst with rfl | hst
      · simp only [Bool.and_eq_true, Bool.not_eq_true'] at hs
        rcases hterm with h | h
        · rw [h] at hs; exact absurd hs.1 (by decide)
        · rw [h] at hs; exact absurd hs.2 (by decide)
      · exact ⟨st, hst, hterm⟩
    · simp [wait_loop, hs]

theorem launch_parent (args : Args) (w : World) (pid : Nat) (reports : List WaitStatus)
    (hf : w.forks 0 = Fork.parent pid reports) :
    cshell_launch args w = wait_loop pid reports
      { w with
        trace := w.trace ++ [Event.fork]
        forks := fun n => w.forks (n + 1)
        stdin := if w.runs args = true then w.stdin.child_reads (w.reads args)
          else w.stdin.child_exit } := by
  simp only [cshell_launch, hf, World.log]

theorem launch_trace (args : Args) (w : World) :
    ∃ more, (cshell_launch args w).2.trace = w.trace ++ Event.fork :: more ∧
      ∀ e ∈ more, e = Event.execvp args ∨ e = Event.perror "cshell".toList ∨
        ∃ pid, e = Event.waitpid pid := by
  cases hf : w.forks 0 with
  | child =>
    by_cases hr : w.runs args = true
    · refine ⟨[Event.execvp args], ?_, by simp⟩
      simp [cshell_launch, hf, World.log, hr]
    · refine ⟨[Event.execvp args, Event.perror "cshell".toList], ?_, by simp⟩
      simp [cshell_launch, hf, World.log, hr]
  | error =>
    refine ⟨[Event.perror "cshell".toList], ?_, by simp⟩
    simp [cshell_launch, hf, World.log]
  | parent pid reports =>
    rw [launch_parent args w pid reports hf]
    obtain ⟨more, h1, h2⟩ := wait_loop_trace pid reports
      { w with
        trace := w.trace ++ [Event.fork]
        forks := fun n => w.forks (n + 1)
        stdin := if w.runs args = true then w.stdin.child_reads (w.reads args)
          else w.stdin.child_exit }
    refine ⟨more, ?_, fun e he => Or.inr (Or.inr ⟨pid, h2 e he⟩)⟩
    rw [h1]
    simp

theorem launch_fields (args : Args) (w : World) :
    (cshell_launch args w).2.heap = w.heap ∧
      (cshell_launch args w).2.forks = (fun n => w.forks (n + 1)) ∧
      (cshell_launch args w).2.cwd = w.cwd ∧
      (cshell_launch args w).2.reads = w.reads ∧
      (cshell_launch args w).2.runs = w.runs ∧
      (w.input_kept → (cshell_launch args w).2.stdin = w.stdin) := by
  cases hf : w.forks 0 with
  | child =>
    by_cases hr : w.runs args = true <;>
      simp [cshell_launch, hf, World.log, hr]
  | error => simp [cshell_launch, hf, World.log]
  | parent pid reports =>
    rw [launch_parent args w pid reports hf]
    obtain ⟨a, b, c, d, e, f⟩ := wait_loop_fields pid reports
      { w with
        trace := w.trace ++ [Event.fork]
        forks := fun n => w.forks (n + 1)
        stdin := if w.runs args = true then w.stdin.child_reads (w.reads args)
          else w.stdin.child_exit }
    refine ⟨b, c, d, e, f, fun hkept => ?_⟩
    rw [a]
    obtain ⟨hreads, hseek⟩ := hkept args
    by_cases hr : w.runs args = true
    · simp only [hr, if_true, hreads hr, Stdin.child_reads]
      rfl
    · have hr2 : w.runs args = false := by simpa using hr
      simp [hr, Stdin.child_exit, hseek hr2]

theorem launch_returns (args : Args) (w : World)
    (hfork : w.forks 0 = Fork.error ∨
      ∃ pid reports, w.forks 0 = Fork.parent pid reports ∧
        ∃ status ∈ reports, WIFEXITED status = true ∨ WIFSIGNALED status = true) :
    (cshell_launch args w).1 = Ending.ret 1 := by
  rcases hfork with hf | ⟨pid, reports, hf, hend⟩
  · simp [cshell_launch, hf]
  · rw [launch_parent args w pid reports hf]
    exact wait_loop_returns pid reports _ hend

theorem foldl_log_fields {α : Type} (l : List α) (f : α → Event) (w : World) :
    (l.foldl (fun w i => w.log (f i)) w).stdin = w.stdin ∧
      (l.foldl (fun w i => w.log (f i)) w).heap = w.heap ∧
      (l.foldl (fun w i => w.log (f i)) w).forks = w.forks ∧
      (l.foldl (fun w i => w.log (f i)) w).reads = w.reads ∧
      (l.foldl (fun w i => w.log (f i)) w).runs = w.runs := by
  induction l generalizing w with
  | nil => exact ⟨rfl, rfl, rfl, rfl, rfl⟩
  | cons a l ih => exact ih (w.log (f a))

theorem help_fields (args : Args) (w : World) :
    (cshell_help args w).1 = Ending.ret 1 ∧ (cshell_help args w).2.stdin = w.stdin ∧
      (cshell_help args w).2.heap = w.heap ∧ (cshell_help args w).2.forks = w.forks ∧
      (cshell_help args w).2.reads = w.reads ∧ (cshell_help args w).2.runs = w.runs := by
  unfold cshell_help
  simp only [World.log]
  obtain ⟨a, b, c, d, e⟩ := foldl_log_fields (List.range cshell_num_builtins)
    (fun i => Event.stdout ("  ".toList ++ builtin_str.getD i [] ++ "\n".toList))
    { w with trace := w.trace ++ [Event.stdout "_____________________\n\n".toList]
        ++ [Event.stdout "CShell by Awf Wiswasi\n".toList]
        ++ [Event.stdout "https://github.com/awiswasi/\n".toList]
        ++ [Event.stdout "\nThis is a simple Linux shell built with C language.\n".toList]
        ++ [Event.stdout "Built-in commands:\n".toList] }
  simp only [World.log] at a b c d e
  exact ⟨trivial, a, b, c, d, e⟩

theorem cd_fields (args : Args) (w : World) :
    (cshell_cd args w).1 = Ending.ret 1 ∧ (cshell_cd args w).2.stdin = w.stdin ∧
      (cshell_cd args w).2.heap = w.heap ∧ (cshell_cd args w).2.forks = w.forks ∧
      (cshell_cd args w).2.reads = w.reads ∧ (cshell_cd args w).2.runs = w.runs := by
  unfold cshell_cd
  cases args[1]? with
  | none => exact ⟨rfl, rfl, rfl, rfl, rfl, rfl⟩
  | some path =>
    simp only
    cases (w.log (Event.chdir path)).dir (w.log (Event.chdir path)).cwd path <;>
      exact ⟨rfl, rfl, rfl, rfl, rfl, rfl⟩

theorem launches_return_shift (w : World) (hos : w.launches_return) (v : World)
    (hv : v.forks = w.forks ∨ v.forks = (fun n => w.forks (n + 1))) : v.launches_return := by
  intro n
  rcases hv with hv | hv
  · rw [hv]; exact hos n
  · rw [hv]; exact hos (n + 1)

theorem wait_loop_status (pid : Nat) (reports : List WaitStatus) (w : World) (status : Int)
    (hst : (wait_loop pid reports w).1 = Ending.ret status) : status = 1 := by
  induction reports generalizing w with
  | nil => simp [wait_loop] at hst
  | cons s reports ih =>
    by_cases hs : (!WIFEXITED s && !WIFSIGNALED s) = true
    · simp only [wait_loop, hs, if_true] at hst
      exact ih _ hst
    · simp [wait_loop, hs] at hst
      exact hst.symm

theorem launch_status (args : Args) (w : World) (status : Int)
    (hst : (cshell_launch args w).1 = Ending.ret status) : status = 1 := by
  cases hf : w.forks 0 with
  | child =>
    by_cases hr : w.runs args = true <;>
      simp [cshell_launch, hf, World.log, hr] at hst
  | error =>
    simp [cshell_launch, hf] at hst
    exact hst.symm
  | parent pid reports =>
    rw [launch_parent args w pid reports hf] at hst
    exact wait_loop_status pid reports _ status hst

/-- What `cshell_execute` does, by the first token: `exit` gives the status
0; anything else gives no status or the status 1, and returns when the
launches do.  The allocator is left alone, and so is standard input when the
children keep it. -/
theorem execute_cases (args : Args) (w : World) :
    (w.input_kept → (cshell_execute args w).2.stdin = w.stdin) ∧
    (cshell_execute args w).2.heap = w.heap ∧
    (cshell_execute args w).2.reads = w.reads ∧
    (cshell_execute args w).2.runs = w.runs ∧
    (args.head? = some "exit".toList → (cshell_execute args w).1 = Ending.ret 0) ∧
    (args.head? ≠ some "exit".toList →
      (∀ status, (cshell_execute args w).1 = Ending.ret status → status = 1) ∧
      (w.launches_return →
        (cshell_execute args w).1 = Ending.ret 1 ∧ (cshell_execute args w).2.launches_return)) := by
  cases args with
  | nil =>
    refine ⟨fun _ => rfl, rfl, rfl, rfl, by simp, fun _ => ⟨?_, fun hos => ⟨rfl, hos⟩⟩⟩
    intro status hst
    simp only [cshell_execute] at hst
    injection hst with hst
    exact hst.symm
  | cons arg0 rest =>
    simp only [cshell_execute, execute_scan_table, List.head?_cons, Option.some.injEq, ne_eq]
    by_cases h1 : arg0 = "help".toList
    · have hne : arg0 ≠ "exit".toList := by rw [h1]; decide
      rw [if_pos h1]
      obtain ⟨a, b, c, d, e, f⟩ := help_fields (arg0 :: rest) w
      refine ⟨fun _ => b, c, e, f, fun e => absurd e hne, fun _ => ⟨?_, fun hos => ⟨a, ?_⟩⟩⟩
      · intro status hst
        rw [a] at hst; injection hst with hst; exact hst.symm
      · exact launches_return_shift w hos _ (Or.inl d)
    · by_cases h2 : arg0 = "cd".toList
      · have hne : arg0 ≠ "exit".toList := by rw [h2]; decide
        rw [if_neg h1, if_pos h2]
        obtain ⟨a, b, c, d, e, f⟩ := cd_fields (arg0 :: rest) w
        refine ⟨fun _ => b, c, e, f, fun e => absurd e hne, fun _ => ⟨?_, fun hos => ⟨a, ?_⟩⟩⟩
        · intro status hst
          rw [a] at hst; injection hst with hst; exact hst.symm
        · exact launches_return_shift w hos _ (Or.inl d)
      · by_cases h3 : arg0 = "exit".toList
        · rw [if_neg h1, if_neg h2, if_pos h3]
          exact ⟨fun _ => rfl, rfl, rfl, rfl, fun _ => rfl, fun hne => absurd h3 hne⟩
        · rw [if_neg h1, if_neg h2, if_neg h3]
          obtain ⟨a, b, _, d, e, f⟩ := launch_fields (arg0 :: rest) w
          refine ⟨f, a, d, e, fun e => absurd e h3, fun _ => ⟨?_, fun hos => ⟨?_, ?_⟩⟩⟩
          · exact fun status hst => launch_status _ _ status hst
          · exact launch_returns (arg0 :: rest) w (hos 0)
          · exact launches_return_shift w hos _ (Or.inr b)

theorem after_lines_nil (k : Nat) : after_lines k [] = [] := by
  induction k with
  | zero => rfl
  | succ k ih => simpa [after_lines, after_line] using ih

theorem exit_line_nth_nil (k : Nat) : exit_line (nth_line k []) = false := by
  rw [nth_line, after_lines_nil]; decide

theorem str_at_zero_append (s tail : List Char) (hs : NUL ∉ s) :
    str_at (s ++ NUL :: tail) 0 = s := by
  have := str_at_append [] s tail hs
  simpa using this

/-! ## Proofs: main loop -/

theorem first_line_length_le (l : List Char) : (first_line l).length ≤ l.length := by
  induction l with
  | nil => simp [first_line]
  | cons c l ih =>
    rw [first_line_cons]
    by_cases hc : c = '\n'
    · simp [hc]
    · simp only [hc, if_false, List.length_cons]; omega

theorem after_line_split (l : List Char) : ∃ pre, l = pre ++ after_line l := by
  induction l with
  | nil => exact ⟨[], rfl⟩
  | cons c l ih =>
    rw [after_line_cons]
    by_cases hc : c = '\n'
    · exact ⟨[c], by simp [hc]⟩
    · obtain ⟨pre, hpre⟩ := ih
      refine ⟨c :: pre, ?_⟩
      rw [if_neg hc, List.cons_append, ← hpre]

theorem drop_to_after_line (l : List Char) :
    l.drop (l.length - (after_line l).length) = after_line l := by
  obtain ⟨pre, hpre⟩ := after_line_split l
  have hlen : l.length - (after_line l).length = pre.length := by
    have := congrArg List.length hpre
    rw [List.length_append] at this
    omega
  rw [hlen]
  conv_lhs => rw [hpre]
  exact drop_append_self pre (after_line l)

theorem after_line_length_le (l : List Char) : (after_line l).length ≤ l.length := by
  obtain ⟨pre, hpre⟩ := after_line_split l
  have := congrArg List.length hpre
  rw [List.length_append] at this
  omega

theorem after_lines_length_le (k : Nat) (l : List Char) : (after_lines k l).length ≤ l.length := by
  induction k generalizing l with
  | zero => exact Nat.le_refl _
  | succ k ih => exact Nat.le_trans (ih (after_line l)) (after_line_length_le l)

theorem lines_short_of_length (l : List Char) (h : l.length < LINE_LIMIT) : lines_short l := by
  intro k
  exact Nat.lt_of_le_of_lt
    (Nat.le_trans (first_line_length_le _) (after_lines_length_le k l)) h

theorem lines_short_after (l : List Char) (h : lines_short l) : lines_short (after_line l) :=
  fun k => h (k + 1)

theorem getchar_pending (s : Stdin) :
    s.getchar.2.pending = s.pending.tail ∧ s.getchar.2.seekable = s.seekable := by
  unfold Stdin.getchar
  cases ha : s.ahead with
  | cons c ahead => simp [Stdin.pending, ha]
  | nil =>
    simp only
    cases hc : (s.file.drop s.offset).take STDIO_BUFSIZE with
    | nil =>
      have hnil : s.file.drop s.offset = [] := by
        cases hd : s.file.drop s.offset with
        | nil => rfl
        | cons x xs => rw [hd] at hc; simp [STDIO_BUFSIZE] at hc
      simp [Stdin.pending, ha, hnil]
    | cons c ahead =>
      refine ⟨?_, rfl⟩
      have e1 : s.file.drop (s.offset + (ahead.length + 1))
          = (s.file.drop s.offset).drop (ahead.length + 1) := by
        simp [List.drop_drop, Nat.add_comm]
      simp only [Stdin.pending, ha, List.nil_append]
      rw [e1]
      generalize s.file.drop s.offset = l at hc
      have hsplit := List.take_append_drop STDIO_BUFSIZE l
      rw [hc] at hsplit
      rw [← hsplit]
      simp

theorem advance_pending (k : Nat) (s : Stdin) :
    (Stdin.advance k s).pending = s.pending.drop k ∧
      (Stdin.advance k s).seekable = s.seekable := by
  induction k generalizing s with
  | zero => exact ⟨rfl, rfl⟩
  | succ k ih =>
    obtain ⟨h1, h2⟩ := ih s.getchar.2
    obtain ⟨g1, g2⟩ := getchar_pending s
    refine ⟨?_, ?_⟩
    · rw [Stdin.advance, h1, g1]
      cases s.pending <;> simp
    · rw [Stdin.advance, h2, g2]

/-- What the reading of one line leaves: the rest of what was pending, the
same allocator and the same children. -/
theorem line_read_fields (w : World) :
    w.line_read.stdin.pending = after_line w.stdin.pending ∧
      w.line_read.stdin.seekable = w.stdin.seekable ∧
      w.line_read.heap = w.heap ∧ w.line_read.reads = w.reads ∧
      w.line_read.forks = w.forks ∧ w.line_read.runs = w.runs := by
  obtain ⟨h1, h2⟩ := advance_pending
    (w.stdin.pending.length - (after_line w.stdin.pending).length) w.stdin
  refine ⟨?_, h2, rfl, rfl, rfl, rfl⟩
  show (Stdin.advance _ w.stdin).pending = _
  rw [h1, drop_to_after_line]

/-- The reader returns a block that starts with the first line of standard
input followed by the terminator, and leaves the input after that line. -/
theorem read_line_spec (h : Heap) (halloc : ∀ n, h.avail n = true) (stdin : List Char)
    (hshort : (first_line stdin).length < LINE_LIMIT) :
    ∃ tail, cshell_read_line h stdin
        = Outcome.ret (first_line stdin ++ NUL :: tail, after_line stdin) ∧
      (first_line stdin ++ NUL :: tail).length
        = CSHELL_RL_BUFSIZE * ((first_line stdin).length / CSHELL_RL_BUFSIZE + 1) := by
  have hm := malloc_chars_first h halloc
  obtain ⟨b, hb1, hb2, hb3, hb4⟩ := read_loop_spec h halloc stdin CSHELL_RL_BUFSIZE 0
    ((List.range CSHELL_RL_BUFSIZE).map h.junk) (by simp) (by decide) (by decide)
    (by omega)
  simp only [Nat.zero_add, List.take_zero, List.nil_append] at hb2 hb3 hb4
  have hlt : (first_line stdin).length < b.length := by
    rcases Nat.lt_or_ge (first_line stdin).length b.length with h1 | h1
    · exact h1
    · rw [List.getElem?_eq_none h1] at hb3; exact Option.noConfusion hb3
  have hget : b[(first_line stdin).length] = NUL := by
    rw [List.getElem?_eq_getElem hlt] at hb3
    exact Option.some.inj hb3
  have hsplit : b = first_line stdin ++ NUL :: b.drop ((first_line stdin).length + 1) := by
    conv_lhs => rw [← List.take_append_drop (first_line stdin).length b]
    rw [hb2, List.drop_eq_getElem_cons hlt, hget]
  refine ⟨b.drop ((first_line stdin).length + 1), ?_, ?_⟩
  · unfold cshell_read_line
    simp only [hm]
    rw [← hsplit]; exact hb1
  · rw [← hsplit]; exact hb4

theorem line_string_block (line tail : List Char) :
    ∃ tail2, line ++ NUL :: tail = line_string line ++ NUL :: tail2 ∧
      NUL ∉ line_string line := by
  induction line with
  | nil => exact ⟨tail, rfl, by simp [line_string]⟩
  | cons a line ih =>
    by_cases ha : a = NUL
    · exact ⟨line ++ NUL :: tail, by simp [line_string, List.takeWhile, ha],
        by simp [line_string, List.takeWhile, ha]⟩
    · obtain ⟨tail2, e, hn⟩ := ih
      refine ⟨tail2, ?_, ?_⟩
      · simp only [line_string, List.takeWhile, ha, ne_eq, not_false_eq_true, decide_True,
          List.cons_append] at e ⊢
        rw [e]
      · simp only [line_string, List.takeWhile, ha, ne_eq, not_false_eq_true, decide_True,
          List.mem_cons, not_or] at hn ⊢
        exact ⟨fun e => ha e.symm, hn⟩

/-- One pass of the loop executes the tokens of the first line that is
pending on standard input, in the world where that line has been read. -/
theorem loop_body_eq (w : World) (halloc : ∀ n, w.heap.avail n = true)
    (hshort : (first_line w.stdin.pending).length < LINE_LIMIT) :
    loop_body w
      = cshell_execute (tokenize (line_string (first_line w.stdin.pending))) w.line_read := by
  obtain ⟨tail, hread, _⟩ := read_line_spec w.heap halloc w.stdin.pending hshort
  obtain ⟨tail2, hblock, hn⟩ := line_string_block (first_line w.stdin.pending) tail
  obtain ⟨ptrs, body, hsplit, hstr, _⟩ :=
    split_line_spec w.heap halloc (line_string (first_line w.stdin.pending)) tail2 hn
  have hargv := argv_ptrs ptrs (List.replicate
    (CSHELL_TOK_BUFSIZE * (ptrs.length / CSHELL_TOK_BUFSIZE + 1) - (ptrs.length + 1))
    Slot.unset) (body ++ NUL :: tail2)
  rw [hstr] at hargv
  rw [hblock] at hread
  simp only [loop_body, World.log, hread, hsplit, hargv, World.line_read]

theorem exit_line_iff (line : List Char) :
    exit_line line = true ↔ (tokenize (line_string line)).head? = some "exit".toList := by
  simp [exit_line]

theorem cshell_loop_succ (n : Nat) (w : World) :
    cshell_loop (n + 1) w
      = match (loop_body w).1 with
        | Ending.ret status =>
          if status ≠ 0 then cshell_loop n (loop_body w).2 else (Ending.ret status, (loop_body w).2)
        | _ => loop_body w := by
  rw [cshell_loop]
  rcases h : loop_body w with ⟨e, w2⟩
  cases e <;> rfl

/-- One pass of the loop, when the allocator grants, the children keep
standard input and its lines are short: the pass leaves the input after its
first line; it gives the status 0 when the first token of that line is
`exit`, and otherwise no status or the status 1, which it does give when the
launches return. -/
theorem pass_cases (w : World) (halloc : ∀ n, w.heap.avail n = true) (hkept : w.input_kept)
    (hshort : lines_short w.stdin.pending) :
    (∀ n, (loop_body w).2.heap.avail n = true) ∧
    (loop_body w).2.input_kept ∧
    (loop_body w).2.stdin.pending = after_line w.stdin.pending ∧
    (exit_line (first_line w.stdin.pending) = true → (loop_body w).1 = Ending.ret 0) ∧
    (exit_line (first_line w.stdin.pending) = false →
      (∀ status, (loop_body w).1 = Ending.ret status → status = 1) ∧
      (w.launches_return →
        (loop_body w).1 = Ending.ret 1 ∧ (loop_body w).2.launches_return)) := by
  obtain ⟨hp, hseek, hheap, hreads, hforks, hruns⟩ := line_read_fields w
  have hkept2 : w.line_read.input_kept := by
    intro args
    rw [hruns, hreads, hseek]
    exact hkept args
  obtain ⟨hstdin, hheap2, hreads2, hruns2, hexit, hother⟩ := execute_cases
    (tokenize (line_string (first_line w.stdin.pending))) w.line_read
  rw [← loop_body_eq w halloc (hshort 0)] at hstdin hheap2 hreads2 hruns2 hexit hother
  have hs := hstdin hkept2
  refine ⟨?_, ?_, ?_, ?_, ?_⟩
  · intro n; rw [hheap2, hheap]; exact halloc n
  · intro args
    rw [hruns2, hreads2, hs]
    exact hkept2 args
  · rw [hs]; exact hp
  · intro hx
    exact hexit ((exit_line_iff _).1 hx)
  · intro hx
    have hne : (tokenize (line_string (first_line w.stdin.pending))).head?
        ≠ some "exit".toList := by
      intro e
      rw [(exit_line_iff _).2 e] at hx
      exact Bool.noConfusion hx
    refine ⟨(hother hne).1, fun hos => ?_⟩
    exact (hother hne).2 (launches_return_shift w hos _ (Or.inl hforks))

/-- Whenever the loop is over, it is right after the first line of standard
input whose first token is `exit`. -/
theorem loop_over_after_exit :
    ∀ (n : Nat) (w : World), (∀ m, w.heap.avail m = true) → w.input_kept →
      lines_short w.stdin.pending →
      ∀ (status : Int) (v : World), cshell_loop n w = (Ending.ret status, v) →
        ∃ k, k < n ∧ exit_line (nth_line k w.stdin.pending) = true ∧
          (∀ j, j < k → exit_line (nth_line j w.stdin.pending) = false) ∧
          v.stdin.pending = after_lines (k + 1) w.stdin.pending := by
  intro n
  induction n with
  | zero =>
    intro w _ _ _ status v hrun
    simp [cshell_loop] at hrun
  | succ n ih =>
    intro w halloc hkept hshort status v hrun
    obtain ⟨halloc2, hkept2, hstdin, hexit, hother⟩ := pass_cases w halloc hkept hshort
    rw [cshell_loop_succ] at hrun
    cases he : (loop_body w).1 with
    | ret st =>
      rw [he] at hrun
      simp only at hrun
      by_cases hz : st = 0
      · -- the pass gave the status 0: its line is an exit line
        subst hz
        simp only [ne_eq, not_true_eq_false, if_false, Prod.mk.injEq] at hrun
        have hline : exit_line (nth_line 0 w.stdin.pending) = true := by
          cases hx : exit_line (nth_line 0 w.stdin.pending) with
          | true => rfl
          | false =>
            have := (hother hx).1 0 he
            exact absurd this (by decide)
        refine ⟨0, Nat.succ_pos n, hline, fun j hj => absurd hj (Nat.not_lt_zero j), ?_⟩
        rw [← hrun.2, hstdin]; rfl
      · rw [if_pos hz] at hrun
        have hline : exit_line (nth_line 0 w.stdin.pending) = false := by
          cases hx : exit_line (nth_line 0 w.stdin.pending) with
          | false => rfl
          | true =>
            have h0 := hexit hx
            rw [he] at h0
            injection h0 with h0
            exact absurd h0 hz
        obtain ⟨k, hk, hk1, hk2, hk3⟩ := ih (loop_body w).2 halloc2 hkept2
          (by rw [hstdin]; exact lines_short_after _ hshort) status v hrun
        rw [hstdin] at hk1 hk2 hk3
        refine ⟨k + 1, Nat.succ_lt_succ hk, hk1, ?_, hk3⟩
        intro j hj
        cases j with
        | zero => exact hline
        | succ j => exact hk2 j (Nat.lt_of_succ_lt_succ hj)
    | exit code => rw [he] at hrun; simp only at hrun; rw [Prod.ext_iff, he] at hrun; simp at hrun
    | exec args => rw [he] at hrun; simp only at hrun; rw [Prod.ext_iff, he] at hrun; simp at hrun
    | hang => rw [he] at hrun; simp only at hrun; rw [Prod.ext_iff, he] at hrun; simp at hrun
    | fault => rw [he] at hrun; simp only at hrun; rw [Prod.ext_iff, he] at hrun; simp at hrun
    | timeout => rw [he] at hrun; simp only at hrun; rw [Prod.ext_iff, he] at hrun; simp at hrun

/-- When the launches return, the loop is over as soon as it has passed the
first line whose first token is `exit`, and is still running before. -/
theorem loop_reaches_exit :
    ∀ (k : Nat) (w : World), (∀ m, w.heap.avail m = true) → w.input_kept →
      lines_short w.stdin.pending → w.launches_return →
      exit_line (nth_line k w.stdin.pending) = true →
      (∀ j, j < k → exit_line (nth_line j w.stdin.pending) = false) →
      (∀ n, n ≤ k → (cshell_loop n w).1 = Ending.timeout) ∧
      ∀ n, k < n → ∃ v, cshell_loop n w = (Ending.ret 0, v) ∧
        v.stdin.pending = after_lines (k + 1) w.stdin.pending := by
  intro k
  induction k with
  | zero =>
    intro w halloc hkept hshort _ hline _
    obtain ⟨_, _, hstdin, hexit, _⟩ := pass_cases w halloc hkept hshort
    have he := hexit hline
    refine ⟨?_, ?_⟩
    · intro n hn
      have : n = 0 := Nat.le_zero.1 hn
      subst this; rfl
    · intro n hn
      obtain ⟨m, rfl⟩ : ∃ m, n = m + 1 := ⟨n - 1, by omega⟩
      refine ⟨(loop_body w).2, ?_, ?_⟩
      · rw [cshell_loop_succ, he]; simp
      · rw [hstdin]; rfl
  | succ k ih =>
    intro w halloc hkept hshort hos hline hbefore
    obtain ⟨halloc2, hkept2, hstdin, _, hother⟩ := pass_cases w halloc hkept hshort
    have h0 : exit_line (first_line w.stdin.pending) = false := hbefore 0 (Nat.succ_pos k)
    obtain ⟨he, hos2⟩ := (hother h0).2 hos
    obtain ⟨hrun1, hrun2⟩ := ih (loop_body w).2 halloc2 hkept2
      (by rw [hstdin]; exact lines_short_after _ hshort) hos2
      (by rw [hstdin]; exact hline)
      (fun j hj => by rw [hstdin]; exact hbefore (j + 1) (Nat.succ_lt_succ hj))
    refine ⟨?_, ?_⟩
    · intro n hn
      cases n with
      | zero => rfl
      | succ n =>
        rw [cshell_loop_succ, he]
        simp only [ne_eq, one_ne_zero, not_false_eq_true, if_true]
        exact hrun1 n (Nat.le_of_succ_le_succ hn)
    · intro n hn
      obtain ⟨m, rfl⟩ : ∃ m, n = m + 1 := ⟨n - 1, by omega⟩
      obtain ⟨v, hv1, hv2⟩ := hrun2 m (Nat.lt_of_succ_lt_succ hn)
      refine ⟨v, ?_, ?_⟩
      · rw [cshell_loop_succ, he]
        simp only [ne_eq, one_ne_zero, not_false_eq_true, if_true]
        exact hv1
      · rw [hv2, hstdin]; rfl

/-- At the end of input a pass of the loop reads an empty line, does nothing
with it and gives the status 1. -/
theorem loop_body_at_eof (w : World) (halloc : ∀ n, w.heap.avail n = true)
    (heof : w.stdin.pending = []) :
    loop_body w = (Ending.ret 1, w.log (Event.stdout "\x1b[33mcshell> ".toList)) := by
  have hshort : (first_line w.stdin.pending).length < LINE_LIMIT := by
    rw [heof]; decide
  rw [loop_body_eq w halloc hshort]
  have h1 : tokenize (line_string (first_line w.stdin.pending)) = [] := by rw [heof]; decide
  have h2 : w.line_read = w.log (Event.stdout "\x1b[33mcshell> ".toList) := by
    unfold World.line_read
    rw [heof]
    rfl
  rw [h1, h2]
  rfl

/-! ## The properties -/

/-- C1: on every line (a block that holds a terminator), whatever delimiters
lead, trail or repeat in it, `cshell_split_line` returns, the strings of the
array it returns are the tokens of the line, and every one of them is a
non-empty string. -/
theorem split_line_tokens_nonempty (h : Heap) (halloc : ∀ n, h.avail n = true)
    (line : List Char) (hterm : NUL ∈ line) :
    ∃ tokens mem args, cshell_split_line h line = Outcome.ret (tokens, mem) ∧
      argv tokens mem = some args ∧ args = tokenize (str_at line 0) ∧
      ∀ t ∈ args, t ≠ [] := by
  obtain ⟨tail, hline, hn⟩ := line_decompose line hterm
  obtain ⟨ptrs, body, hrun, hstr, _⟩ := split_line_spec h halloc (str_at line 0) tail hn
  rw [← hline] at hrun
  refine ⟨_, _, tokenize (str_at line 0), hrun, ?_, rfl, fun t ht => tokenize_nonempty _ t ht⟩
  rw [argv_ptrs, hstr]

theorem split_line_tokens_nonempty_witness :
    NUL ∈ "  ls   -l \t".toList ++ [NUL] ∧
    ∃ tokens mem args,
      cshell_split_line (Heap.plenty 'x') ("  ls   -l \t".toList ++ [NUL])
        = Outcome.ret (tokens, mem) ∧
      argv tokens mem = some args ∧
      args = tokenize (str_at ("  ls   -l \t".toList ++ [NUL]) 0) ∧
      ∀ t ∈ args, t ≠ [] :=
  ⟨by decide,
    split_line_tokens_nonempty (Heap.plenty 'x') (fun _ => rfl) _ (by decide)⟩

/-- C2: for every list of tokens that are non-empty strings without a
delimiter, `cshell_split_line` on the tokens joined with single spaces returns
an array whose strings are exactly that list, whatever its length. -/
theorem split_line_join (h : Heap) (halloc : ∀ n, h.avail n = true)
    (toks : List (List Char)) (tail : List Char)
    (htok : ∀ t ∈ toks, t ≠ [] ∧ NUL ∉ t ∧ ∀ c ∈ t, c ∉ CSHELL_TOK_DELIM) :
    ∃ tokens mem, cshell_split_line h (join_space toks ++ NUL :: tail)
        = Outcome.ret (tokens, mem) ∧
      argv tokens mem = some toks := by
  have hn : NUL ∉ join_space toks := NUL_not_mem_join_space toks (fun t ht => (htok t ht).2.1)
  obtain ⟨ptrs, body, hrun, hstr, _⟩ := split_line_spec h halloc (join_space toks) tail hn
  refine ⟨_, _, hrun, ?_⟩
  rw [argv_ptrs, hstr, tokenize_join_space toks (fun t ht => ⟨(htok t ht).1, (htok t ht).2.2⟩)]

theorem split_line_join_witness :
    ∃ tokens mem,
      cshell_split_line (Heap.plenty 'x')
          (join_space (List.replicate 65 "ab".toList) ++ NUL :: []) = Outcome.ret (tokens, mem) ∧
      argv tokens mem = some (List.replicate 65 "ab".toList) :=
  split_line_join (Heap.plenty 'x') (fun _ => rfl) (List.replicate 65 "ab".toList) []
    (fun t ht => by rw [List.eq_of_mem_replicate ht]; decide)

/-- C3: on a line that is empty or made of delimiters only,
`cshell_split_line` returns an array whose cell 0 is the terminator: the token
sequence is empty. -/
theorem split_line_blank (h : Heap) (halloc : ∀ n, h.avail n = true)
    (d tail : List Char) (hd : ∀ c ∈ d, c ∈ CSHELL_TOK_DELIM) :
    ∃ tokens mem, cshell_split_line h (d ++ NUL :: tail) = Outcome.ret (tokens, mem) ∧
      tokens[0]? = some Slot.null ∧ argv tokens mem = some [] := by
  have hn : NUL ∉ d := by
    intro e
    have := (mem_delim_iff NUL).1 (hd NUL e)
    rw [NUL_not_delim] at this
    exact Bool.noConfusion this
  obtain ⟨ptrs, body, hrun, hstr, _⟩ := split_line_spec h halloc d tail hn
  rw [tokenize_delims d hd] at hstr
  have hp : ptrs = [] := List.map_eq_nil_iff.1 hstr
  subst hp
  exact ⟨_, _, hrun, rfl, rfl⟩

theorem split_line_blank_witness :
    (∀ c ∈ " \t\r\n ".toList, c ∈ CSHELL_TOK_DELIM) ∧
    ∃ tokens mem,
      cshell_split_line (Heap.plenty 'x') (" \t\r\n ".toList ++ NUL :: "junk".toList)
        = Outcome.ret (tokens, mem) ∧
      tokens[0]? = some Slot.null ∧ argv tokens mem = some [] :=
  ⟨by decide,
    split_line_blank (Heap.plenty 'x') (fun _ => rfl) " \t\r\n ".toList "junk".toList
      (by decide)⟩

/-- C10: on every line, `cshell_split_line` never stores outside the token
array (a store outside it would end the run in `fault`): with `n` the number
of tokens of the line, the array it returns has `64 * (n / 64 + 1)` cells,
more than `n`; cells `0` to `n - 1` point to the tokens, in order, cell `n`
is the terminator, and the cells after it were never written. -/
theorem split_line_within_capacity (h : Heap) (halloc : ∀ n, h.avail n = true)
    (line : List Char) (hterm : NUL ∈ line) :
    ∃ tokens mem n, cshell_split_line h line = Outcome.ret (tokens, mem) ∧
      n = (tokenize (str_at line 0)).length ∧
      n < tokens.length ∧
      tokens.length = CSHELL_TOK_BUFSIZE * (n / CSHELL_TOK_BUFSIZE + 1) ∧
      (∀ i, i < n → ∃ p, tokens[i]? = some (Slot.ptr p) ∧
        some (str_at mem p) = (tokenize (str_at line 0))[i]?) ∧
      tokens[n]? = some Slot.null ∧
      (∀ i, n < i → i < tokens.length → tokens[i]? = some Slot.unset) := by
  obtain ⟨tail, hline, hn⟩ := line_decompose line hterm
  obtain ⟨ptrs, body, hrun, hstr, _⟩ := split_line_spec h halloc (str_at line 0) tail hn
  rw [← hline] at hrun
  have hlen : ptrs.length = (tokenize (str_at line 0)).length := by
    rw [← hstr, List.length_map]
  have hcap : ptrs.length < CSHELL_TOK_BUFSIZE * (ptrs.length / CSHELL_TOK_BUFSIZE + 1) := by
    simp only [CSHELL_TOK_BUFSIZE]; omega
  refine ⟨_, _, ptrs.length, hrun, hlen, ?_, ?_, ?_, ?_, ?_⟩
  · simp only [List.length_append, List.length_map, List.length_cons, List.length_replicate]
    omega
  · simp only [List.length_append, List.length_map, List.length_cons, List.length_replicate]
    omega
  · intro i hi
    refine ⟨ptrs[i], ?_, ?_⟩
    · rw [List.getElem?_append_left (by simpa using hi)]
      simp [List.getElem?_map, List.getElem?_eq_getElem hi]
    · rw [← hstr, List.getElem?_map, List.getElem?_eq_getElem hi]
      rfl
  · rw [List.getElem?_append_right (by simp)]
    simp
  · intro i hi1 hi2
    simp only [List.length_append, List.length_map, List.length_cons,
      List.length_replicate] at hi2
    rw [List.getElem?_append_right (by simp; omega)]
    obtain ⟨j, hj⟩ : ∃ j, i - (List.map Slot.ptr ptrs).length = j + 1 :=
      ⟨i - ptrs.length - 1, by simp; omega⟩
    rw [hj, List.getElem?_cons_succ, List.getElem?_replicate]
    have : j < CSHELL_TOK_BUFSIZE * (ptrs.length / CSHELL_TOK_BUFSIZE + 1)
        - (ptrs.length + 1) := by
      simp at hj; omega
    simp [this]

theorem split_line_within_capacity_witness :
    NUL ∈ join_space (List.replicate 64 "a".toList) ++ [NUL] ∧
    ∃ tokens mem n,
      cshell_split_line (Heap.plenty 'x') (join_space (List.replicate 64 "a".toList) ++ [NUL])
        = Outcome.ret (tokens, mem) ∧
      n = (tokenize (str_at (join_space (List.replicate 64 "a".toList) ++ [NUL]) 0)).length ∧
      n < tokens.length ∧
      tokens.length = CSHELL_TOK_BUFSIZE * (n / CSHELL_TOK_BUFSIZE + 1) ∧
      (∀ i, i < n → ∃ p, tokens[i]? = some (Slot.ptr p) ∧
        some (str_at mem p)
          = (tokenize (str_at (join_space (List.replicate 64 "a".toList) ++ [NUL]) 0))[i]?) ∧
      tokens[n]? = some Slot.null ∧
      (∀ i, n < i → i < tokens.length → tokens[i]? = some Slot.unset) :=
  ⟨by simp,
    split_line_within_capacity (Heap.plenty 'x') (fun _ => rfl) _ (by simp)⟩

/-- C4: for every token sequence whose first token is not, character for
character, one of `help`, `cd`, `exit`, `cshell_execute` is one call of
`cshell_launch` on the whole sequence and ends as that call does: no builtin
runs, and what the process does is one `fork`, followed only by the
launcher's own `execvp` of the whole sequence, `waitpid` or `perror`. -/
theorem execute_launches_once (arg0 : List Char) (rest : Args) (w : World)
    (hne : arg0 ∉ builtin_str) :
    cshell_execute (arg0 :: rest) w = cshell_launch (arg0 :: rest) w ∧
    ∃ more, (cshell_execute (arg0 :: rest) w).2.trace = w.trace ++ Event.fork :: more ∧
      ∀ e ∈ more, e = Event.execvp (arg0 :: rest) ∨ e = Event.perror "cshell".toList ∨
        ∃ pid, e = Event.waitpid pid := by
  have h1 : arg0 ≠ "help".toList := fun e => hne (by rw [e]; decide)
  have h2 : arg0 ≠ "cd".toList := fun e => hne (by rw [e]; decide)
  have h3 : arg0 ≠ "exit".toList := fun e => hne (by rw [e]; decide)
  have heq : cshell_execute (arg0 :: rest) w = cshell_launch (arg0 :: rest) w := by
    simp only [cshell_execute, execute_scan_table]
    rw [if_neg h1, if_neg h2, if_neg h3]
  refine ⟨heq, ?_⟩
  rw [heq]
  exact launch_trace (arg0 :: rest) w

theorem execute_launches_once_witness :
    "Exit".toList ∉ builtin_str ∧
    cshell_execute ["Exit".toList, "now".toList] (World.sample [])
      = cshell_launch ["Exit".toList, "now".toList] (World.sample []) ∧
    ∃ more, (cshell_execute ["Exit".toList, "now".toList] (World.sample [])).2.trace
        = (World.sample []).trace ++ Event.fork :: more ∧
      ∀ e ∈ more, e = Event.execvp ["Exit".toList, "now".toList] ∨
        e = Event.perror "cshell".toList ∨ ∃ pid, e = Event.waitpid pid :=
  ⟨by decide,
    execute_launches_once "Exit".toList ["now".toList] (World.sample []) (by decide)⟩

/-- C5: for every token sequence whose first token is `exit`, whatever
follows it, `cshell_execute` returns 0 after the one `printf` of
`cshell_exit`: no call of `fork` is made. -/
theorem execute_exit (rest : Args) (w : World) :
    cshell_execute ("exit".toList :: rest) w
      = (Ending.ret 0, w.log (Event.stdout "\x1b[0m".toList)) ∧
    (cshell_execute ("exit".toList :: rest) w).2.forks = w.forks ∧
    fork_count (cshell_execute ("exit".toList :: rest) w).2.trace = fork_count w.trace := by
  have h1 : "exit".toList ≠ "help".toList := by decide
  have h2 : "exit".toList ≠ "cd".toList := by decide
  have heq : cshell_execute ("exit".toList :: rest) w
      = (Ending.ret 0, w.log (Event.stdout "\x1b[0m".toList)) := by
    simp only [cshell_execute, execute_scan_table]
    rw [if_neg h1, if_neg h2, if_pos trivial]
    rfl
  refine ⟨heq, ?_, ?_⟩
  · rw [heq]; rfl
  · rw [heq]
    simp [World.log, fork_count, List.count_append]

/-- C6: on the token sequence made of `cd` alone, `cshell_cd` writes its
message to standard error and returns 1: it makes no call of `chdir`, and the
working directory is the one before the call. -/
theorem cd_without_argument (w : World) :
    cshell_cd ["cd".toList] w
      = (Ending.ret 1, w.log (Event.stderr "cshell: expected argument to \"cd\"\n".toList)) ∧
    (cshell_cd ["cd".toList] w).2.cwd = w.cwd ∧
    ∀ path, Event.chdir path ∈ (cshell_cd ["cd".toList] w).2.trace →
      Event.chdir path ∈ w.trace := by
  have heq : cshell_cd ["cd".toList] w
      = (Ending.ret 1, w.log (Event.stderr "cshell: expected argument to \"cd\"\n".toList)) :=
    rfl
  refine ⟨heq, ?_, ?_⟩
  · rw [heq]; rfl
  · intro path hp
    rw [heq] at hp
    simpa [World.log] using hp

/-- C8: in the parent, `cshell_launch` returns 1 whatever the launch comes
to: when `fork` fails, after the `perror` and without a call of `waitpid`;
when the child is made, once `waitpid` reports that it ended, with whatever
exit status, or that a signal, whichever, killed it. -/
theorem launch_continues (args : Args) (w : World)
    (hfork : w.forks 0 = Fork.error ∨
      ∃ pid reports, w.forks 0 = Fork.parent pid reports ∧
        ∃ status ∈ reports, WIFEXITED status = true ∨ WIFSIGNALED status = true) :
    (cshell_launch args w).1 = Ending.ret 1 ∧
    (w.forks 0 = Fork.error →
      (cshell_launch args w).2.trace
        = w.trace ++ [Event.fork, Event.perror "cshell".toList]) := by
  refine ⟨launch_returns args w hfork, ?_⟩
  intro hf
  simp [cshell_launch, hf, World.log]

theorem launch_continues_witness :
    (cshell_launch ["false".toList]
      { World.sample [] with
        forks := fun _ => Fork.parent 9 [WaitStatus.stopped 19, WaitStatus.signaled 9] }).1
      = Ending.ret 1 ∧
    (cshell_launch ["true".toList] { World.sample [] with forks := fun _ => Fork.error }).1
      = Ending.ret 1 :=
  ⟨(launch_continues ["false".toList]
      { World.sample [] with
        forks := fun _ => Fork.parent 9 [WaitStatus.stopped 19, WaitStatus.signaled 9] }
      (Or.inr ⟨9, _, rfl, WaitStatus.signaled 9, by simp, Or.inr rfl⟩)).1,
   (launch_continues ["true".toList] { World.sample [] with forks := fun _ => Fork.error }
      (Or.inl rfl)).1⟩


/-- C9, as amended: on every standard input whose first line is shorter than
`INT_MAX + 1 - CSHELL_RL_BUFSIZE` = 2147482624 characters,
`cshell_read_line` returns a buffer that holds exactly the characters before
the first newline or the end of input, in order, then the terminator; the
buffer has grown by 1024 each time it was full; the rest of the input starts
after the newline.  The string in the buffer is that line when the line has
no `NUL` in it, and the empty string at the end of input. -/
theorem read_line_exact (h : Heap) (halloc : ∀ n, h.avail n = true) (stdin : List Char)
    (hshort : (first_line stdin).length < LINE_LIMIT) :
    ∃ buffer, cshell_read_line h stdin = Outcome.ret (buffer, after_line stdin) ∧
      buffer.take (first_line stdin).length = first_line stdin ∧
      buffer[(first_line stdin).length]? = some NUL ∧
      buffer.length = CSHELL_RL_BUFSIZE * ((first_line stdin).length / CSHELL_RL_BUFSIZE + 1) ∧
      (NUL ∉ first_line stdin → str_at buffer 0 = first_line stdin) ∧
      (stdin = [] → str_at buffer 0 = []) := by
  obtain ⟨tail, hrun, hlen⟩ := read_line_spec h halloc stdin hshort
  refine ⟨_, hrun, by simp, ?_, hlen, fun hn => str_at_zero_append _ _ hn, ?_⟩
  · rw [List.getElem?_append_right (Nat.le_refl _), Nat.sub_self]
    exact List.getElem?_cons_zero
  intro he
  subst he
  exact str_at_zero_append [] tail (by simp)

theorem read_line_exact_witness :
    (first_line (List.replicate 1024 'a' ++ "\nnext".toList)).length < LINE_LIMIT ∧
    ∃ buffer, cshell_read_line (Heap.plenty 'x') (List.replicate 1024 'a' ++ "\nnext".toList)
        = Outcome.ret (buffer, after_line (List.replicate 1024 'a' ++ "\nnext".toList)) ∧
      buffer.take (first_line (List.replicate 1024 'a' ++ "\nnext".toList)).length
        = first_line (List.replicate 1024 'a' ++ "\nnext".toList) ∧
      buffer[(first_line (List.replicate 1024 'a' ++ "\nnext".toList)).length]? = some NUL ∧
      buffer.length = CSHELL_RL_BUFSIZE *
        ((first_line (List.replicate 1024 'a' ++ "\nnext".toList)).length / CSHELL_RL_BUFSIZE + 1) ∧
      (NUL ∉ first_line (List.replicate 1024 'a' ++ "\nnext".toList) →
        str_at buffer 0 = first_line (List.replicate 1024 'a' ++ "\nnext".toList)) ∧
      (List.replicate 1024 'a' ++ "\nnext".toList = [] → str_at buffer 0 = []) :=
  have hshort : (first_line (List.replicate 1024 'a' ++ "\nnext".toList)).length
      < LINE_LIMIT :=
    Nat.lt_of_le_of_lt (first_line_length_le _)
      (by rw [List.length_append, List.length_replicate]; decide)
  ⟨hshort, read_line_exact (Heap.plenty 'x') (fun _ => rfl) _ hshort⟩

/-- C9, counterexample: on a line of 2147482624 characters `cshell_read_line`
returns nothing.  When `position` reaches `bufsize` = 2147482624, the sum
`bufsize + 1024` wraps to a negative `int`, `realloc` is asked for more than
`PTRDIFF_MAX` bytes and refuses, and the reader ends the process with the
allocation error. -/
theorem read_line_long_line_fatal :
    cshell_read_line (Heap.plenty 'x') (List.replicate 2147482624 'a') = Outcome.fatal := by
  have hrep : List.replicate 2147482624 'a' = List.replicate 2147482623 'a' ++ 'a' :: [] :=
    List.replicate_succ' 2147482623 'a'
  rw [hrep]
  exact read_line_overflow (Heap.plenty 'x') (fun _ => rfl) (List.replicate 2147482623 'a')
    'a' [] (fun x hx => by rw [List.eq_of_mem_replicate hx]; decide) (by decide)
    (by rw [List.length_replicate]; rfl)

theorem after_lines_add (a b : Nat) (l : List Char) :
    after_lines (a + b) l = after_lines b (after_lines a l) := by
  induction a generalizing l with
  | zero => simp [after_lines]
  | succ a ih =>
    have e : a + 1 + b = (a + b) + 1 := by omega
    rw [e]
    exact ih (after_line l)

/-- C7, as amended: when the children leave standard input as it is (the
programs launched read nothing from it, and it is not seekable, as a terminal
or a pipe, where `execvp` fails and the child ends in `exit`) and every line
is shorter than 2147482624 characters, the loop is over only through `exit`.  Whenever it is over, it is right after the first
line of standard input whose first token is `exit`; when the launches return
it is over there indeed, and still running before; on an input without such a
line it is never over; and at the end of input each pass reads an empty line,
does nothing with it and goes on. -/
theorem loop_ends_only_by_exit (w : World) (halloc : ∀ n, w.heap.avail n = true)
    (hkept : w.input_kept) (hshort : lines_short w.stdin.pending) :
    (∀ n status v, cshell_loop n w = (Ending.ret status, v) →
      ∃ k, k < n ∧ exit_line (nth_line k w.stdin.pending) = true ∧
        (∀ j, j < k → exit_line (nth_line j w.stdin.pending) = false) ∧
        v.stdin.pending = after_lines (k + 1) w.stdin.pending) ∧
    (w.launches_return → ∀ k, exit_line (nth_line k w.stdin.pending) = true →
      (∀ j, j < k → exit_line (nth_line j w.stdin.pending) = false) →
      (∀ n, n ≤ k → (cshell_loop n w).1 = Ending.timeout) ∧
      ∀ n, k < n → ∃ v, cshell_loop n w = (Ending.ret 0, v) ∧
        v.stdin.pending = after_lines (k + 1) w.stdin.pending) ∧
    ((∀ k, exit_line (nth_line k w.stdin.pending) = false) →
      ∀ n status v, cshell_loop n w ≠ (Ending.ret status, v)) ∧
    (w.stdin.pending = [] →
      loop_body w = (Ending.ret 1, w.log (Event.stdout "\x1b[33mcshell> ".toList)) ∧
      ∀ n status v, cshell_loop n w ≠ (Ending.ret status, v)) := by
  have hnever : (∀ k, exit_line (nth_line k w.stdin.pending) = false) →
      ∀ n status v, cshell_loop n w ≠ (Ending.ret status, v) := by
    intro hno n status v hrun
    obtain ⟨k, _, hk, _⟩ := loop_over_after_exit n w halloc hkept hshort status v hrun
    rw [hno k] at hk
    exact Bool.noConfusion hk
  refine ⟨fun n status v hrun => loop_over_after_exit n w halloc hkept hshort status v hrun,
    fun hos k hk hbefore => loop_reaches_exit k w halloc hkept hshort hos hk hbefore,
    hnever, ?_⟩
  intro heof
  refine ⟨loop_body_at_eof w halloc heof, hnever ?_⟩
  intro k
  rw [heof]
  exact exit_line_nth_nil k

theorem loop_ends_only_by_exit_witness :
    (∀ n, (World.sample "ls -l\n\nexit 3\npwd\n".toList).heap.avail n = true) ∧
    (World.sample "ls -l\n\nexit 3\npwd\n".toList).input_kept ∧
    lines_short (World.sample "ls -l\n\nexit 3\npwd\n".toList).stdin.pending ∧
    ∃ v, cshell_loop 3 (World.sample "ls -l\n\nexit 3\npwd\n".toList) = (Ending.ret 0, v) ∧
      v.stdin.pending
        = after_lines 3 (World.sample "ls -l\n\nexit 3\npwd\n".toList).stdin.pending :=
  have hshort : lines_short (World.sample "ls -l\n\nexit 3\npwd\n".toList).stdin.pending :=
    lines_short_of_length _ (by decide)
  have hkept : (World.sample "ls -l\n\nexit 3\npwd\n".toList).input_kept :=
    fun _ => ⟨fun _ => rfl, fun _ => rfl⟩
  ⟨fun _ => rfl, hkept, hshort,
    ((loop_ends_only_by_exit (World.sample "ls -l\n\nexit 3\npwd\n".toList) (fun _ => rfl)
        hkept hshort).2.1
      (fun _ => Or.inr ⟨7, _, rfl, WaitStatus.exited 1, by simp, Or.inl rfl⟩)
      2 (by decide) (by decide)).2 3 (by decide)⟩

section
set_option maxRecDepth 1000000

/-- C7, counterexample: standard input is the file `zz`, `it`, `cd`, `ex`,
four lines none of which has `exit` as its first token, and `execvp` finds no
program.  The child launched for `zz` ends in `exit`, which puts the offset
of the file back to the end of that line; the child launched for `it` cannot
put it back further.  In the fourth pass the reader takes `ex` from what
stdio had read ahead, then reads the file again from `it`: the line is
`exit`, and the loop is over. -/
theorem loop_over_without_exit_line :
    (World.script "zz\nit\ncd\nex".toList).stdin.pending = "zz\nit\ncd\nex".toList ∧
    (∀ k, exit_line (nth_line k "zz\nit\ncd\nex".toList) = false) ∧
    (cshell_loop 4 (World.script "zz\nit\ncd\nex".toList)).1 = Ending.ret 0 := by
  refine ⟨rfl, ?_, by decide⟩
  intro k
  by_cases hk : k < 4
  · have h4 : ∀ j, j < 4 → exit_line (nth_line j "zz\nit\ncd\nex".toList) = false := by
      decide
    exact h4 k hk
  · obtain ⟨j, rfl⟩ : ∃ j, k = 4 + j := ⟨k - 4, by omega⟩
    have hnil : after_lines 4 "zz\nit\ncd\nex".toList = [] := by decide
    rw [nth_line, after_lines_add, hnil, after_lines_nil]
    decide

end

end CShell
